import Mathlib

set_option maxHeartbeats 1000000
set_option maxRecDepth 4000
set_option linter.unusedSectionVars false
set_option linter.unusedVariables false

/-!
Shallow embedding of the tournament match scheduler found in
`src/app/dashboard/tournaments/[id]/screen/page.tsx`, together with proofs
about its behaviour.

Modelling conventions:
* Times of day (manipulated in the source as "HH:MM" strings via
  `timeToMin` / `minToTime` / `normHHMM`) are modelled directly as
  minute-of-day natural numbers.  All comparisons and map keys the source
  derives from those strings are injective images of the minute values, so
  nothing is lost.
* JavaScript `Map` objects are modelled as insertion-ordered association
  lists (`AMap`), and JavaScript `Set` objects as duplicate-free lists with
  append-at-end insertion (`ladd`).
* Heuristic scores (floating-point in the source, built only from the
  constants 2, 1.2, 80 and 0.5 on small integers) are modelled as exact
  rationals.
* Database effects are modelled by explicit state passing: the persisted
  match set is a list, generation either fails (returning the untouched
  previous list) or replaces it, and manual-edit saves apply row updates.
-/

namespace Sched

/-- Insertion-ordered association list, modelling a JavaScript `Map`. -/
abbrev AMap (K V : Type) : Type := List (K × V)

namespace AMap

variable {K V : Type} [DecidableEq K]

/-- Model of `Map.get`. -/
def get? : AMap K V → K → Option V
  | [], _ => none
  | (k', v) :: rest, k => if k' = k then some v else get? rest k

/-- Model of `Map.has`. -/
def hasKey (m : AMap K V) (k : K) : Bool :=
  (get? m k).isSome

/-- Model of `Map.set`: replace the value in place when the key is present,
append a new entry otherwise (JavaScript maps are insertion-ordered). -/
def set : AMap K V → K → V → AMap K V
  | [], k, v => [(k, v)]
  | (k', v') :: rest, k, v =>
    if k' = k then (k', v) :: rest else (k', v') :: set rest k v

/-- Model of `Map.values()` (as a list; only ever used for min/max). -/
def values (m : AMap K V) : List V := m.map Prod.snd

/-- Keys of the map, in insertion order. -/
def keysOf (m : AMap K V) : List K := m.map Prod.fst

theorem get?_set_self (m : AMap K V) (k : K) (v : V) :
    get? (set m k v) k = some v := by
  induction m with
  | nil => simp [set, get?]
  | cons p rest ih =>
    obtain ⟨k', v'⟩ := p
    by_cases h : k' = k <;> simp [set, get?, h, ih]

theorem get?_set_ne (m : AMap K V) {k k' : K} (v : V) (h : k ≠ k') :
    get? (set m k v) k' = get? m k' := by
  induction m with
  | nil => simp [set, get?, h]
  | cons p rest ih =>
    obtain ⟨k₀, v₀⟩ := p
    by_cases h0 : k₀ = k
    · subst h0
      simp [set, get?, h]
    · simp only [set, if_neg h0]
      by_cases h1 : k₀ = k'
      · simp [get?, h1]
      · simp [get?, h1, ih]

theorem keysOf_cons (k' : K) (v' : V) (rest : AMap K V) :
    keysOf ((k', v') :: rest) = k' :: keysOf rest := rfl

theorem values_cons (k' : K) (v' : V) (rest : AMap K V) :
    values ((k', v') :: rest) = v' :: values rest := rfl

theorem mem_keysOf_of_get?_isSome {m : AMap K V} {k : K}
    (h : (get? m k).isSome) : k ∈ keysOf m := by
  induction m with
  | nil => simp [get?] at h
  | cons p rest ih =>
    obtain ⟨k', v'⟩ := p
    rw [keysOf_cons]
    by_cases h0 : k' = k
    · exact h0 ▸ List.mem_cons_self k' _
    · rw [get?, if_neg h0] at h
      exact List.mem_cons_of_mem _ (ih h)

theorem get?_isSome_of_mem_keysOf {m : AMap K V} {k : K}
    (h : k ∈ keysOf m) : (get? m k).isSome := by
  induction m with
  | nil => exact absurd h (List.not_mem_nil k)
  | cons p rest ih =>
    obtain ⟨k', v'⟩ := p
    by_cases h0 : k' = k
    · simp [get?, h0]
    · rw [keysOf_cons] at h
      rcases List.mem_cons.mp h with h1 | h1
      · exact absurd h1.symm h0
      · rw [get?, if_neg h0]
        exact ih h1

theorem keysOf_set_of_mem {m : AMap K V} {k : K} (v : V)
    (h : k ∈ keysOf m) : keysOf (set m k v) = keysOf m := by
  induction m with
  | nil => exact absurd h (List.not_mem_nil k)
  | cons p rest ih =>
    obtain ⟨k', v'⟩ := p
    by_cases h0 : k' = k
    · rw [set, if_pos h0, keysOf_cons, keysOf_cons]
    · rw [keysOf_cons] at h
      rcases List.mem_cons.mp h with h1 | h1
      · exact absurd h1.symm h0
      · rw [set, if_neg h0, keysOf_cons, keysOf_cons, ih h1]

theorem keysOf_set_of_not_mem {m : AMap K V} {k : K} (v : V)
    (h : k ∉ keysOf m) : keysOf (set m k v) = keysOf m ++ [k] := by
  induction m with
  | nil => rfl
  | cons p rest ih =>
    obtain ⟨k', v'⟩ := p
    rw [keysOf_cons] at h
    have h1 : k' ≠ k := fun he => h (he ▸ List.mem_cons_self k' _)
    have h2 : k ∉ keysOf rest := fun hm => h (List.mem_cons_of_mem _ hm)
    rw [set, if_neg h1, keysOf_cons, keysOf_cons, ih h2, List.cons_append]

/-- Every value of `set m k v` is either `v` or an old value. -/
theorem mem_values_set {m : AMap K V} {k : K} {v w : V}
    (h : w ∈ values (set m k v)) : w = v ∨ w ∈ values m := by
  induction m with
  | nil =>
    rw [show set ([] : AMap K V) k v = [(k, v)] from rfl] at h
    rcases List.mem_cons.mp h with h1 | h1
    · exact Or.inl h1
    · exact absurd h1 (List.not_mem_nil w)
  | cons p rest ih =>
    obtain ⟨k', v'⟩ := p
    by_cases h0 : k' = k
    · rw [set, if_pos h0, values_cons] at h
      rcases List.mem_cons.mp h with h1 | h1
      · exact Or.inl h1
      · exact Or.inr (by rw [values_cons]; exact List.mem_cons_of_mem _ h1)
    · rw [set, if_neg h0, values_cons] at h
      rcases List.mem_cons.mp h with h1 | h1
      · exact Or.inr (by rw [values_cons]; exact h1 ▸ List.mem_cons_self v' _)
      · rcases ih h1 with h2 | h2
        · exact Or.inl h2
        · exact Or.inr (by rw [values_cons]; exact List.mem_cons_of_mem _ h2)

/-- The new value is among the values of `set m k v`. -/
theorem self_mem_values_set (m : AMap K V) (k : K) (v : V) :
    v ∈ values (set m k v) := by
  induction m with
  | nil => exact List.mem_cons_self v _
  | cons p rest ih =>
    obtain ⟨k', v'⟩ := p
    by_cases h0 : k' = k
    · rw [set, if_pos h0, values_cons]
      exact List.mem_cons_self v _
    · rw [set, if_neg h0, values_cons]
      exact List.mem_cons_of_mem _ ih

/-- A lookup returning `some` exhibits a value of the map. -/
theorem mem_values_of_get? {m : AMap K V} {k : K} {v : V}
    (h : get? m k = some v) : v ∈ values m := by
  induction m with
  | nil => exact absurd h (by simp [get?])
  | cons p rest ih =>
    obtain ⟨k', v'⟩ := p
    by_cases h0 : k' = k
    · rw [get?, if_pos h0] at h
      rw [values_cons]
      exact (Option.some_inj.mp h) ▸ List.mem_cons_self v' _
    · rw [get?, if_neg h0] at h
      rw [values_cons]
      exact List.mem_cons_of_mem _ (ih h)

/-- Values of entries whose key differs from `k` survive `set m k v`. -/
theorem mem_values_set_of_get?_ne {m : AMap K V} {k' : K} {w : V}
    (k : K) (v : V) (hmem : get? m k' = some w) (hne : k ≠ k') :
    w ∈ values (set m k v) :=
  mem_values_of_get? (by rw [get?_set_ne m v hne]; exact hmem)

end AMap

/-- Model of a JavaScript `Set.add`: append when absent. -/
def ladd {α : Type} [DecidableEq α] (s : List α) (x : α) : List α :=
  if x ∈ s then s else s ++ [x]

theorem mem_ladd {α : Type} [DecidableEq α] {s : List α} {x y : α} :
    y ∈ ladd s x ↔ y ∈ s ∨ y = x := by
  unfold ladd
  by_cases h : x ∈ s
  · simp [h]
    intro he; subst he; exact h
  · simp [h]

theorem subset_ladd {α : Type} [DecidableEq α] (s : List α) (x : α) :
    s ⊆ ladd s x := by
  intro y hy
  exact mem_ladd.mpr (Or.inl hy)

/-! ## Time grid and pauses -/

/-- Half-open interval overlap test (`overlaps` in the source). -/
def overlaps (aStart aEnd bStart bEnd : Nat) : Bool :=
  decide (aStart < bEnd) && decide (bStart < aEnd)

/-- Model of `clampInt` from the source on an integer input:
`Math.max(min, Math.min(max, Math.floor(n)))`, with the result known to lie
in `[mn, mx]` so it can be read back as a natural number. -/
def clampIdx (n : Int) (mn mx : Nat) : Nat :=
  (max (mn : Int) (min (mx : Int) n)).toNat

/-- One pause window `{from, to}` (minute-of-day interval). -/
structure Pause where
  pfrom : Nat
  pto : Nat
deriving DecidableEq, Repr

/-- The `tournament_except` pause: a window plus the allow-list
`exceptFields` of fields that stay open. -/
structure ExceptPause where
  pfrom : Nat
  pto : Nat
  exceptFields : List Nat
deriving DecidableEq, Repr

/-- The `pauseModel` memo: global pauses, the optional except-pause and the
per-field pauses object. -/
structure PauseModel where
  globalPauses : List Pause
  exceptPause : Option ExceptPause
  fieldPausesObj : AMap Nat (List Pause)
deriving DecidableEq, Repr

/-- Model of `isPaused(fieldIdx, startHHMM)`: the cell's occupied interval is
`[start, start + slotMinutes)`. -/
def isPaused (pm : PauseModel) (slotMinutes fieldIdx startMin : Nat) : Bool :=
  let stopMin := startMin + slotMinutes
  if pm.globalPauses.any (fun p => overlaps startMin stopMin p.pfrom p.pto) then true
  else if (match pm.exceptPause with
    | some ep =>
      overlaps startMin stopMin ep.pfrom ep.pto && !(ep.exceptFields.contains fieldIdx)
    | none => false) then true
  else
    let fp := (AMap.get? pm.fieldPausesObj fieldIdx).getD []
    fp.any (fun p => overlaps startMin stopMin p.pfrom p.pto)

/-- Loop `for (cur = start; cur + slot <= end; cur += slot)` collecting the
start times, as structural recursion on an explicit iteration bound (the
loop advances by `slotMinutes ≥ 1` each time, so `endMin + 1 - cur`
iterations always suffice; see `timeline_recurrence`). -/
def timelineGo (endMin slotMinutes : Nat) : Nat → Nat → List Nat
  | 0, _ => []
  | fuel + 1, cur =>
    if cur + slotMinutes ≤ endMin then
      cur :: timelineGo endMin slotMinutes fuel (cur + slotMinutes)
    else []

/-- The `timeline` memo: every start time whose slot fits in the window. -/
def timeline (startMin endMin slotMinutes : Nat) : List Nat :=
  timelineGo endMin slotMinutes (endMin + 1) startMin

/-- The iteration bound is irrelevant once it covers the window. -/
theorem timelineGo_congr (endMin slot : Nat) (hslot : 0 < slot) :
    ∀ (f1 : Nat) (f2 cur : Nat), endMin + 1 ≤ cur + f1 → endMin + 1 ≤ cur + f2 →
      timelineGo endMin slot f1 cur = timelineGo endMin slot f2 cur := by
  intro f1
  induction f1 with
  | zero =>
    intro f2 cur h1 h2
    cases f2 with
    | zero => rfl
    | succ f2 =>
      rw [timelineGo, timelineGo, if_neg (by omega)]
  | succ f ih =>
    intro f2 cur h1 h2
    cases f2 with
    | zero =>
      rw [timelineGo, timelineGo, if_neg (by omega)]
    | succ f2 =>
      rw [timelineGo, timelineGo]
      by_cases hc : cur + slot ≤ endMin
      · rw [if_pos hc, if_pos hc, ih f2 (cur + slot) (by omega) (by omega)]
      · rw [if_neg hc, if_neg hc]

/-- The defining recurrence of the source loop: `timeline` emits `startMin`
and continues at `startMin + slot` exactly while the slot fits. -/
theorem timeline_recurrence (startMin endMin slot : Nat) (hslot : 0 < slot) :
    timeline startMin endMin slot =
      if startMin + slot ≤ endMin then
        startMin :: timeline (startMin + slot) endMin slot
      else [] := by
  unfold timeline
  rw [timelineGo]
  by_cases hc : startMin + slot ≤ endMin
  · rw [if_pos hc, if_pos hc,
      timelineGo_congr endMin slot hslot endMin (endMin + 1) (startMin + slot)
        (by omega) (by omega)]
  · rw [if_neg hc, if_neg hc]

/-- Field indices `1 .. fieldCount` (the source iterates
`for (f = 1; f <= fieldCount; f++)`). -/
def fieldsList (fieldCount : Nat) : List Nat :=
  (List.range fieldCount).map (· + 1)

/-- A bookable cell: start time, field index and the index of the start time
in the timeline (`time_order_index`). -/
structure Slot where
  start : Nat
  fieldIdx : Nat
  timeIndex : Nat
deriving DecidableEq, Repr

/-- The `allSlots` list built inside `generateMatches`: every non-paused
(time, field) cell in time order then field order.  The source looks the
time index up in `timeIndexMap` built by enumerating the timeline, which is
exactly `List.enum`. -/
def allSlots (pm : PauseModel) (startMin endMin slotMinutes fieldCount : Nat) :
    List Slot :=
  (List.enum (timeline startMin endMin slotMinutes)).flatMap (fun p =>
    (fieldsList fieldCount).filterMap (fun f =>
      if isPaused pm slotMinutes f p.2 then none
      else some ⟨p.2, f, p.1⟩))

/-- The `totalPlayableSlots` memo: count of non-paused cells. -/
def totalPlayableSlots (pm : PauseModel)
    (startMin endMin slotMinutes fieldCount : Nat) : Nat :=
  ((timeline startMin endMin slotMinutes).map (fun hhmm =>
    (fieldsList fieldCount).countP (fun f => !isPaused pm slotMinutes f hhmm))).sum

/-! ## Pairing generator (circle-method round robin) -/

/-- The synthetic bye marker pushed for odd team counts. -/
def BYE : String := "__BYE__"

/-- One generated pairing `{a, b, round}`. -/
structure RRPair where
  a : String
  b : String
  round : Nat
deriving DecidableEq, Repr

/-- Pad with the bye when the team count is odd. -/
def padIds (teamIds : List String) : List String :=
  if teamIds.length % 2 = 1 then teamIds ++ [BYE] else teamIds

/-- Pairings of a single round: position `i` against position `n - 1 - i`,
discarding pairings that involve the bye. -/
def roundPairs (arr : List String) (r : Nat) : List RRPair :=
  (List.range (arr.length / 2)).filterMap (fun i =>
    let a := arr.getD i ""
    let b := arr.getD (arr.length - 1 - i) ""
    if a ≠ BYE ∧ b ≠ BYE then some ⟨a, b, r + 1⟩ else none)

/-- Model of `rest.unshift(rest.pop())`: rotate right by one position. -/
def rotR {α : Type} : List α → List α
  | [] => []
  | x :: xs => (x :: xs).getLast (List.cons_ne_nil x xs) :: (x :: xs).dropLast

/-- One rotation step of the circle method: the first element stays fixed,
the rest rotates right by one. -/
def rrStep : List String → List String
  | [] => []
  | fixed :: rest => fixed :: rotR rest

/-- The round loop `for (r = 0; r < rounds; r++)`. -/
def rrRounds (arr : List String) (r : Nat) : Nat → List RRPair
  | 0 => []
  | fuel + 1 => roundPairs arr r ++ rrRounds (rrStep arr) (r + 1) fuel

/-- Model of `roundRobinPairs(teamIds)`. -/
def roundRobinPairs (teamIds : List String) : List RRPair :=
  let ids := padIds teamIds
  rrRounds ids 0 (ids.length - 1)

/-! ## Cross-pool interleaving -/

/-- One element of the interleaved pairing sequence `{a, b, groupIdx}`. -/
structure SeqPair where
  a : String
  b : String
  groupIdx : Nat
deriving DecidableEq, Repr

/-- One sweep of the `while (madeProgress)` loop: shift the head of every
queue, in order, keeping the non-empty results. -/
def sweepHeads (qs : List (Nat × List RRPair)) : List SeqPair :=
  qs.filterMap (fun g => g.2.head?.map (fun p => ⟨p.a, p.b, g.1⟩))

/-- The pending-pairing total of the queues. -/
def queuesSize (qs : List (Nat × List RRPair)) : Nat :=
  (qs.map (fun g => g.2.length)).sum

/-- The `while (madeProgress)` loop of `interleaveByGroups` as structural
recursion on an explicit iteration bound (each productive sweep removes at
least one pending pairing, so `queuesSize qs` iterations suffice; see
`interleaveRounds_recurrence`).  A sweep over all-empty queues makes no
progress and the loop stops. -/
def interleaveGo : Nat → List (Nat × List RRPair) → List SeqPair
  | 0, _ => []
  | fuel + 1, qs =>
    if queuesSize qs = 0 then []
    else sweepHeads qs ++ interleaveGo fuel (qs.map (fun g => (g.1, g.2.tail)))

def interleaveRounds (qs : List (Nat × List RRPair)) : List SeqPair :=
  interleaveGo (queuesSize qs) qs

theorem queuesSize_tails (qs : List (Nat × List RRPair)) :
    queuesSize (qs.map (fun g => (g.1, g.2.tail))) =
      (qs.map (fun g => g.2.tail.length)).sum := by
  unfold queuesSize
  rw [List.map_map]
  rfl

theorem sum_tails_le (qs : List (Nat × List RRPair)) :
    (qs.map (fun g => g.2.tail.length)).sum ≤ (qs.map (fun g => g.2.length)).sum := by
  induction qs with
  | nil => exact le_refl 0
  | cons q rs ih =>
    simp only [List.map_cons, List.sum_cons]
    have hle : q.2.tail.length ≤ q.2.length := by cases q.2 <;> simp
    omega

theorem sum_tails_lt {qs : List (Nat × List RRPair)} {q : Nat × List RRPair}
    (hq : q ∈ qs) (hqne : q.2.length ≠ 0) :
    (qs.map (fun g => g.2.tail.length)).sum < (qs.map (fun g => g.2.length)).sum := by
  induction qs with
  | nil => exact absurd hq (List.not_mem_nil q)
  | cons p rs ih =>
    simp only [List.map_cons, List.sum_cons]
    rcases List.mem_cons.mp hq with heq | hmem
    · subst heq
      have htail : q.2.tail.length < q.2.length := by
        cases hc : q.2 with
        | nil => rw [hc] at hqne; simp at hqne
        | cons x xs => simp
      have hle := sum_tails_le rs
      omega
    · have hle : p.2.tail.length ≤ p.2.length := by cases p.2 <;> simp
      have hlt := ih hmem
      omega

theorem queuesSize_tails_lt {qs : List (Nat × List RRPair)}
    (h : queuesSize qs ≠ 0) :
    queuesSize (qs.map (fun g => (g.1, g.2.tail))) < queuesSize qs := by
  have h2 : ∃ q ∈ qs, q.2.length ≠ 0 := by
    by_contra hc
    push_neg at hc
    apply h
    unfold queuesSize
    apply List.sum_eq_zero
    intro x hx
    simp only [List.mem_map] at hx
    obtain ⟨q, hq, rfl⟩ := hx
    exact hc q hq
  obtain ⟨q, hq, hqne⟩ := h2
  rw [queuesSize_tails]
  unfold queuesSize
  exact sum_tails_lt hq hqne

/-- The iteration bound is irrelevant once it covers the pending total. -/
theorem interleaveGo_congr :
    ∀ (f1 f2 : Nat) (qs : List (Nat × List RRPair)),
      queuesSize qs ≤ f1 → queuesSize qs ≤ f2 →
      interleaveGo f1 qs = interleaveGo f2 qs := by
  intro f1
  induction f1 with
  | zero =>
    intro f2 qs h1 h2
    cases f2 with
    | zero => rfl
    | succ f2 =>
      have h0 : queuesSize qs = 0 := by omega
      show ([] : List SeqPair) = interleaveGo (f2 + 1) qs
      rw [interleaveGo, if_pos h0]
  | succ f ih =>
    intro f2 qs h1 h2
    cases f2 with
    | zero =>
      have h0 : queuesSize qs = 0 := by omega
      show interleaveGo (f + 1) qs = ([] : List SeqPair)
      rw [interleaveGo, if_pos h0]
    | succ f2 =>
      rw [interleaveGo, interleaveGo]
      by_cases hc : queuesSize qs = 0
      · rw [if_pos hc, if_pos hc]
      · rw [if_neg hc, if_neg hc,
          ih f2 _ (by have := queuesSize_tails_lt hc; omega)
            (by have := queuesSize_tails_lt hc; omega)]

/-- The defining recurrence of the `while` loop: sweep one pairing off every
queue, in order, until all queues are exhausted. -/
theorem interleaveRounds_recurrence (qs : List (Nat × List RRPair)) :
    interleaveRounds qs =
      if queuesSize qs = 0 then []
      else sweepHeads qs ++ interleaveRounds (qs.map (fun g => (g.1, g.2.tail))) := by
  unfold interleaveRounds
  rcases hn : queuesSize qs with _ | n
  · rw [if_pos rfl]
    rfl
  · rw [if_neg (by omega : ¬ (n + 1 = 0)), interleaveGo, hn,
      if_neg (by omega : ¬ (n + 1 = 0))]
    have hlt : queuesSize (qs.map (fun g => (g.1, g.2.tail))) < n + 1 := by
      rw [← hn]
      exact queuesSize_tails_lt (by rw [hn]; omega)
    exact congrArg (sweepHeads qs ++ ·)
      (interleaveGo_congr n (queuesSize (qs.map (fun g => (g.1, g.2.tail)))) _
        (by omega) (le_refl _))

/-- Model of the comparator sort `queues.sort((x, y) => x.groupIdx - y.groupIdx)`. -/
def sortByGroupIdx (l : List (Nat × List RRPair)) : List (Nat × List RRPair) :=
  l.mergeSort (fun x y => decide (x.1 ≤ y.1))

/-- Model of `interleaveByGroups`. -/
def interleaveByGroups (groups : List (Nat × List RRPair)) : List SeqPair :=
  interleaveRounds (sortByGroupIdx groups)

/-! ## Teams and the pairing sequence -/

/-- A team row (id and optional pool index `group_idx`). -/
structure Team where
  id : String
  group_idx : Option Int
deriving DecidableEq, Repr

/-- `clampInt(Number(tm.group_idx ?? 1), 1, groupCount)`. -/
def teamClampedGroup (groupCount : Nat) (tm : Team) : Nat :=
  clampIdx (tm.group_idx.getD 1) 1 groupCount

/-- Clamp of an already-natural group index (`clampInt(g, 1, groupCount)`,
used on `cand.groupIdx ?? 1` inside the engine where the index is a number
produced by the sequence builder). -/
def clampG (groupCount g : Nat) : Nat :=
  min groupCount (max 1 g)

/-- The `groups` map built in pooled mode: teams keyed by clamped pool. -/
def groupTeams (groupCount : Nat) (teams : List Team) : AMap Nat (List Team) :=
  teams.foldl (fun m tm =>
    let g := teamClampedGroup groupCount tm
    AMap.set m g ((AMap.get? m g).getD [] ++ [tm])) []

/-- The pairing-sequence construction of `generateMatches`: pooled mode runs
the round robin per pool (pools with fewer than two teams yield nothing) and
interleaves; flat mode runs one round robin tagged with group 1. -/
def buildSequence (showGroups : Bool) (groupCount : Nat) (teams : List Team) :
    List SeqPair :=
  if showGroups then
    let groups := groupTeams groupCount teams
    let list := (List.range groupCount).filterMap (fun i =>
      let g := i + 1
      let gTeams := (AMap.get? groups g).getD []
      if gTeams.length < 2 then none
      else some (g, roundRobinPairs (gTeams.map Team.id)))
    interleaveByGroups list
  else
    (roundRobinPairs (teams.map Team.id)).map (fun p => ⟨p.a, p.b, 1⟩)

/-! ## Greedy assignment engine -/

/-- A persisted match emitted by generation (the constant `tournament_id`
column is omitted). -/
structure ScheduledMatch where
  home_team_id : String
  away_team_id : String
  field_idx : Nat
  start_time : Nat
deriving DecidableEq, Repr

/-- The mutable run state of the placement loop. -/
structure RunState where
  sequence : List SeqPair
  ptr : Nat
  lastTimeIndex : AMap String Int
  busyAtTime : AMap Nat (List String)
  fieldUsage : AMap Nat Nat
  playedCount : AMap String Nat
  playedCountByGroup : AMap Nat (AMap String Nat)
  scheduled : List ScheduledMatch
deriving DecidableEq, Repr

/-- Per-team initialisation loop (`playedCount`, `lastTimeIndex`,
`playedCountByGroup`). -/
def initCounts (groupCount : Nat) (teams : List Team) :
    AMap String Nat × AMap String Int × AMap Nat (AMap String Nat) :=
  teams.foldl (fun acc tm =>
    let g := teamClampedGroup groupCount tm
    let pg := if AMap.hasKey acc.2.2 g then acc.2.2 else AMap.set acc.2.2 g []
    (AMap.set acc.1 tm.id 0,
     AMap.set acc.2.1 tm.id (-9999),
     AMap.set pg g (AMap.set ((AMap.get? pg g).getD []) tm.id 0)))
    ([], [], [])

/-- `for (f = 1; f <= fieldCount; f++) fieldUsage.set(f, 0)`. -/
def initFieldUsage (fieldCount : Nat) : AMap Nat Nat :=
  (fieldsList fieldCount).foldl (fun m f => AMap.set m f 0) []

/-- The engine state right before the slot loop. -/
def initState (groupCount fieldCount : Nat) (teams : List Team)
    (sequence : List SeqPair) : RunState :=
  let c := initCounts groupCount teams
  { sequence := sequence
    ptr := 0
    lastTimeIndex := c.2.1
    busyAtTime := []
    fieldUsage := initFieldUsage fieldCount
    playedCount := c.1
    playedCountByGroup := c.2.2
    scheduled := [] }

/-- Shared body of `minMaxGlobalAfter` / `minMaxGroupAfter`: minimum of the
current counts, and maximum of the current counts together with both teams'
counts incremented (the source computes `Math.min(...values)` /
`Math.max(...values)` guarded by `values.length ? _ : 0`). -/
def minMaxAfter (m : AMap String Nat) (a b : String) : Nat × Nat :=
  let values := AMap.values m
  let minV := values.min?.getD 0
  let maxV0 := values.max?.getD 0
  let ca := (AMap.get? m a).getD 0
  let cb := (AMap.get? m b).getD 0
  (minV, max (max maxV0 (ca + 1)) (cb + 1))

/-- Model of `minMaxGlobalAfter(a, b)`. -/
def minMaxGlobalAfter (st : RunState) (a b : String) : Nat × Nat :=
  minMaxAfter st.playedCount a b

/-- Model of `minMaxGroupAfter(groupIdx, a, b)`. -/
def minMaxGroupAfter (st : RunState) (groupIdx : Nat) (a b : String) :
    Nat × Nat :=
  match AMap.get? st.playedCountByGroup groupIdx with
  | none => (0, 0)
  | some m => minMaxAfter m a b

/-- Model of `restOkStrict(teamId, timeIndex)`. -/
def restOkStrict (st : RunState) (teamId : String) (timeIndex : Nat) : Bool :=
  decide ((timeIndex : Int) - ((AMap.get? st.lastTimeIndex teamId).getD (-9999)) ≥ 2)

/-- The candidate filter of the window scan: the `continue` chain of the
source (busy check, strict-rest check when in Pass A, global equity check,
pool equity check).  In the source `maxV ≥ minV` always holds, so the
truncated subtraction is exact. -/
def candidateOk (groupCount : Nat) (st : RunState) (busySet : List String)
    (slot : Slot) (strictRest : Bool) (cand : SeqPair) : Bool :=
  let g := clampG groupCount cand.groupIdx
  if busySet.contains cand.a || busySet.contains cand.b then false
  else if strictRest &&
      !(restOkStrict st cand.a slot.timeIndex && restOkStrict st cand.b slot.timeIndex) then
    false
  else
    let gg := minMaxGlobalAfter st cand.a cand.b
    if gg.2 - gg.1 > 1 then false
    else
      let mg := minMaxGroupAfter st g cand.a cand.b
      if mg.2 - mg.1 > 1 then false
      else true

/-- The heuristic score of a surviving candidate (field-usage penalty,
window-position penalty, relax penalty in Pass B, low-play bonus).  The
source computes `usage * 2 + (i - ptr) * 1.2 + relax * 80 + (ca + cb) * 0.5`
in floating point; every constant is a multiple of 0.1, so the score is
modelled exactly, scaled by 10, as a natural number (2 becomes 20, 1.2
becomes 12, 80 becomes 800, 0.5 becomes 5) — an order-isomorphic exact
representation, so every comparison and tie of the rational values is
preserved. -/
def candScore (st : RunState) (slot : Slot) (strictRest : Bool) (i : Nat)
    (cand : SeqPair) : Nat :=
  let usage := (AMap.get? st.fieldUsage slot.fieldIdx).getD 0
  let fieldPenalty := usage * 20
  let orderPenalty := (i - st.ptr) * 12
  let relaxPenalty :=
    if !strictRest then
      let la := (AMap.get? st.lastTimeIndex cand.a).getD (-9999)
      let lb := (AMap.get? st.lastTimeIndex cand.b).getD (-9999)
      if decide ((slot.timeIndex : Int) - la < 2) || decide ((slot.timeIndex : Int) - lb < 2)
      then 800 else 0
    else 0
  let ca := (AMap.get? st.playedCount cand.a).getD 0
  let cb := (AMap.get? st.playedCount cand.b).getD 0
  let lowPlayedBonus := (ca + cb) * 5
  fieldPenalty + orderPenalty + relaxPenalty + lowPlayedBonus

/-- One iteration of the window scan: skip filtered candidates, keep the
strictly better score (earliest index wins ties). -/
def scanStep (groupCount : Nat) (st : RunState) (busySet : List String)
    (slot : Slot) (strictRest : Bool) (best : Option (Nat × Nat)) (i : Nat) :
    Option (Nat × Nat) :=
  match st.sequence.get? i with
  | none => best
  | some cand =>
    if candidateOk groupCount st busySet slot strictRest cand then
      let score := candScore st slot strictRest i cand
      match best with
      | none => some (i, score)
      | some (bi, bs) => if score < bs then some (i, score) else some (bi, bs)
    else best

/-- The window scan of one pass: indices `ptr ≤ i < min(len, ptr + 180)`,
keeping the best (strictly smallest) score, earliest index on ties. -/
def scanPass (groupCount : Nat) (st : RunState) (busySet : List String)
    (slot : Slot) (strictRest : Bool) : Option Nat :=
  let endPtr := min st.sequence.length (st.ptr + 180)
  (((List.range' st.ptr (endPtr - st.ptr)).foldl
    (scanStep groupCount st busySet slot strictRest) none).map Prod.fst)

/-- The two passes: strict rest first, relaxed rest only when Pass A found
nothing. -/
def chooseCandidate (groupCount : Nat) (st : RunState) (busySet : List String)
    (slot : Slot) : Option Nat :=
  match scanPass groupCount st busySet slot true with
  | some i => some i
  | none => scanPass groupCount st busySet slot false

/-- Swap `sequence[i]` and `sequence[j]`. -/
def swapSeq (l : List SeqPair) (i j : Nat) : List SeqPair :=
  match l.get? i, l.get? j with
  | some x, some y => (l.set i y).set j x
  | _, _ => l

/-- Commit the chosen candidate: swap it to the cursor position, emit the
match, update the busy set, last-time indices, played counts (global and for
the chosen group), field usage, and advance the cursor. -/
def placeChosen (groupCount : Nat) (st : RunState) (slot : Slot)
    (busySet : List String) (chosenIndex : Nat) : RunState :=
  let seq := swapSeq st.sequence st.ptr chosenIndex
  match seq.get? st.ptr with
  | none => st
  | some chosen =>
    let gChosen := clampG groupCount chosen.groupIdx
    let nm : ScheduledMatch := ⟨chosen.a, chosen.b, slot.fieldIdx, slot.start⟩
    let busySet2 := ladd (ladd busySet chosen.a) chosen.b
    { sequence := seq
      ptr := st.ptr + 1
      lastTimeIndex :=
        AMap.set (AMap.set st.lastTimeIndex chosen.a (slot.timeIndex : Int))
          chosen.b (slot.timeIndex : Int)
      busyAtTime := AMap.set st.busyAtTime slot.start busySet2
      fieldUsage :=
        AMap.set st.fieldUsage slot.fieldIdx
          ((AMap.get? st.fieldUsage slot.fieldIdx).getD 0 + 1)
      playedCount :=
        let p1 := AMap.set st.playedCount chosen.a
          ((AMap.get? st.playedCount chosen.a).getD 0 + 1)
        AMap.set p1 chosen.b ((AMap.get? p1 chosen.b).getD 0 + 1)
      playedCountByGroup :=
        match AMap.get? st.playedCountByGroup gChosen with
        | none => st.playedCountByGroup
        | some m =>
          let m1 := AMap.set m chosen.a ((AMap.get? m chosen.a).getD 0 + 1)
          let m2 := AMap.set m1 chosen.b ((AMap.get? m1 chosen.b).getD 0 + 1)
          AMap.set st.playedCountByGroup gChosen m2
      scheduled := st.scheduled ++ [nm] }

/-- Body of `for (slot of allSlots)`.  The source `break`s once
`ptr >= sequence.length`; since the state is then final, skipping each
remaining slot is equivalent.  The first branch materialises the
`busyAtTime` entry exactly as `if (!busyAtTime.has(k)) busyAtTime.set(k, new Set())`. -/
def stepSlot (groupCount : Nat) (st : RunState) (slot : Slot) : RunState :=
  if st.ptr ≥ st.sequence.length then st
  else
    let st1 := if AMap.hasKey st.busyAtTime slot.start then st
      else { st with busyAtTime := AMap.set st.busyAtTime slot.start [] }
    let busySet := (AMap.get? st1.busyAtTime slot.start).getD []
    match chooseCandidate groupCount st1 busySet slot with
    | none => st1
    | some chosenIndex => placeChosen groupCount st1 slot busySet chosenIndex

/-- The whole placement loop. -/
def runLoop (groupCount : Nat) (slots : List Slot) (st : RunState) : RunState :=
  slots.foldl (stepSlot groupCount) st

/-! ## Generation end-to-end -/

/-- The configuration (tournament row) and team list read at the start of
`generateMatches`. -/
structure GenInput where
  teams : List Team
  min_teams : Option Nat
  max_teams : Option Nat
  startMin : Nat
  endMin : Nat
  match_duration_min : Nat
  rotation_duration_min : Nat
  num_fields : Nat
  pauses : PauseModel
  showGroups : Bool
  group_count : Option Int
deriving Repr

/-- `slotMinutes = Math.max(1, match_duration + rotation_duration)`. -/
def slotMinutesOf (inp : GenInput) : Nat :=
  max 1 (inp.match_duration_min + inp.rotation_duration_min)

/-- `groupCount = clampInt(Number(t.group_count ?? 1), 1, 8)`. -/
def groupCountOf (inp : GenInput) : Nat :=
  clampIdx (inp.group_count.getD 1) 1 8

/-- Status string `Pas assez d\x27équipes: n/minT minimum.` -/
def msgTooFew (n minT : Nat) : String :=
  "Pas assez d\x27équipes: " ++ toString n ++ "/" ++ toString minT ++ " minimum."

/-- Status string `Trop d\x27équipes: n/maxT maximum.` -/
def msgTooMany (n maxT : Nat) : String :=
  "Trop d\x27équipes: " ++ toString n ++ "/" ++ toString maxT ++ " maximum."

/-- Status string for the capacity check. -/
def msgCapacity (must playable : Nat) : String :=
  "Planning impossible: " ++ toString must ++ " matchs requis, mais seulement " ++
    toString playable ++ " créneaux jouables (horaires/pauses/terrains)."

/-- `mustMatches`: length of the pairing sequence the run has to place. -/
def requiredPairings (inp : GenInput) : Nat :=
  (buildSequence inp.showGroups (groupCountOf inp) inp.teams).length

/-- `totalPlayableSlots` of this configuration (the open-cell count). -/
def openCells (inp : GenInput) : Nat :=
  totalPlayableSlots inp.pauses inp.startMin inp.endMin (slotMinutesOf inp) inp.num_fields

/-- The pure content of `generateMatches`: the pre-flight checks (with their
exact status strings), then the pairing sequence, the capacity check, and the
placement loop.  `.error` is returned strictly before the destructive
delete-then-insert, `.ok` carries the fully built schedule that replaces the
previous one. -/
def generateRun (inp : GenInput) : Except String (List ScheduledMatch) :=
  if inp.teams.length < inp.min_teams.getD 2 then
    .error (msgTooFew inp.teams.length (inp.min_teams.getD 2))
  else if inp.teams.length > inp.max_teams.getD 24 then
    .error (msgTooMany inp.teams.length (inp.max_teams.getD 24))
  else if requiredPairings inp > openCells inp then
    .error (msgCapacity (requiredPairings inp) (openCells inp))
  else
    let groupCount := groupCountOf inp
    let slots := allSlots inp.pauses inp.startMin inp.endMin (slotMinutesOf inp) inp.num_fields
    let finalSt := runLoop groupCount slots
      (initState groupCount inp.num_fields inp.teams
        (buildSequence inp.showGroups groupCount inp.teams))
    .ok finalSt.scheduled

/-- The persistence boundary of a generation run: a pre-flight failure
leaves the previously persisted match set untouched, success replaces it
(delete + bulk insert). -/
def persistGenerate (prev : List ScheduledMatch) (inp : GenInput) :
    List ScheduledMatch :=
  match generateRun inp with
  | .error _ => prev
  | .ok sched => sched

/-! ## Manual editing -/

/-- A displayed/persisted match row. -/
structure MatchRow where
  id : String
  start_time : Nat
  field_idx : Nat
  home_team_id : String
  away_team_id : String
deriving DecidableEq, Repr

/-- The `matchMap` memo keyed by `(start, field)`; built with `Map.set`, so
a later row with the same position overrides an earlier one. -/
def matchMapGet (rows : List MatchRow) (time fieldIdx : Nat) : Option MatchRow :=
  (rows.filter (fun m => m.start_time == time && m.field_idx == fieldIdx)).getLast?

/-- The `move` helper of `onCellClick`: reposition the first row whose id
matches (`findIndex` + in-place update). -/
def moveMatch (matchId : String) (newTime newField : Nat) :
    List MatchRow → List MatchRow
  | [] => []
  | m :: rest =>
    if m.id = matchId then { m with start_time := newTime, field_idx := newField } :: rest
    else m :: moveMatch matchId newTime newField rest

/-- The comparator `(x, y) => timeToMin(x) - timeToMin(y) || x.field - y.field`
as a total boolean order for the stable sort. -/
def matchLe (x y : MatchRow) : Bool :=
  decide (x.start_time < y.start_time) ||
    (x.start_time == y.start_time && decide (x.field_idx ≤ y.field_idx))

/-- Result of one click in edit mode: new in-memory grid, new selection and
the status message, if any, of a rejected gesture. -/
structure ClickResult where
  rows : List MatchRow
  selectedCell : Option (Nat × Nat)
  statusMsg : Option String
deriving DecidableEq, Repr

/-- Model of `onCellClick(hhmm, fieldIdx)` in edit mode. -/
def onCellClick (pm : PauseModel) (slotMinutes : Nat) (rows : List MatchRow)
    (selectedCell : Option (Nat × Nat)) (hhmm fieldIdx : Nat) : ClickResult :=
  if isPaused pm slotMinutes fieldIdx hhmm then ⟨rows, selectedCell, none⟩
  else
    match selectedCell with
    | none => ⟨rows, some (hhmm, fieldIdx), none⟩
    | some sel =>
      if sel = (hhmm, fieldIdx) then ⟨rows, none, none⟩
      else
        let sTime := sel.1
        let sField := sel.2
        let a := matchMapGet rows sTime sField
        let b := matchMapGet rows hhmm fieldIdx
        if isPaused pm slotMinutes sField sTime || isPaused pm slotMinutes fieldIdx hhmm then
          ⟨rows, none, some "⚠️ Impossible: une des cellules est en pause."⟩
        else
          let next :=
            match a, b with
            | some ma, some mb =>
              moveMatch mb.id sTime sField
                (moveMatch ma.id mb.start_time mb.field_idx rows)
            | some ma, none => moveMatch ma.id hhmm fieldIdx rows
            | none, some mb => moveMatch mb.id sTime sField rows
            | none, none => rows
          ⟨next.mergeSort matchLe, none, none⟩

/-- The snapshot taken by `enterEditMode`: id to (start, field). -/
def snapshotPositions (rows : List MatchRow) : AMap String (Nat × Nat) :=
  rows.foldl (fun snap m => AMap.set snap m.id (m.start_time, m.field_idx)) []

/-- The diff computed by `saveManualEdits`: rows whose current position
differs from the snapshot (rows without a snapshot entry are skipped). -/
def computeUpdates (orig : AMap String (Nat × Nat)) (rows : List MatchRow) :
    List (String × Nat × Nat) :=
  rows.filterMap (fun m =>
    match AMap.get? orig m.id with
    | none => none
    | some o =>
      if o ≠ (m.start_time, m.field_idx) then some (m.id, m.start_time, m.field_idx)
      else none)

/-- The validation loop of `saveManualEdits`: walk the rows accumulating the
per-time team sets; answer the first time slot holding a duplicated team. -/
def findDupTime (byTime : AMap Nat (List String)) : List MatchRow → Option Nat
  | [] => none
  | m :: rest =>
    let set0 := (AMap.get? byTime m.start_time).getD []
    if set0.contains m.home_team_id || set0.contains m.away_team_id then
      some m.start_time
    else
      findDupTime
        (AMap.set byTime m.start_time (ladd (ladd set0 m.home_team_id) m.away_team_id))
        rest

/-- Outcome of a save. -/
inductive SaveResult
  | nothingToSave
  | invalidDup (hhmm : Nat)
  | noChanges
  | saved (updates : List (String × Nat × Nat))
deriving DecidableEq, Repr

/-- One `supabase.from("matches").update({start_time, field_idx}).eq("id", u.id)`. -/
def dbApplyUpdate (db : List MatchRow) (u : String × Nat × Nat) : List MatchRow :=
  db.map (fun row =>
    if row.id = u.1 then { row with start_time := u.2.1, field_idx := u.2.2 } else row)

/-- Model of `saveManualEdits`: compute the diff, validate (no team twice in
one time slot), then either bail out or apply every update row to the
persisted set. -/
def saveManualEdits (orig : AMap String (Nat × Nat)) (rows db : List MatchRow) :
    List MatchRow × SaveResult :=
  if orig.isEmpty then (db, .nothingToSave)
  else
    let updates := computeUpdates orig rows
    match findDupTime [] rows with
    | some hhmm => (db, .invalidDup hhmm)
    | none =>
      if updates.length = 0 then (db, .noChanges)
      else (updates.foldl dbApplyUpdate db, .saved updates)

/-! ## Pause semantics (claim C6) -/

theorem overlaps_iff {a1 a2 b1 b2 : Nat} :
    overlaps a1 a2 b1 b2 = true ↔ (a1 < b2 ∧ b1 < a2) := by
  simp [overlaps]

theorem isPaused_iff (pm : PauseModel) (slotMinutes fieldIdx startMin : Nat) :
    isPaused pm slotMinutes fieldIdx startMin = true ↔
      ((∃ p ∈ pm.globalPauses, startMin < p.pto ∧ p.pfrom < startMin + slotMinutes) ∨
       (∃ ep, pm.exceptPause = some ep ∧
         (startMin < ep.pto ∧ ep.pfrom < startMin + slotMinutes) ∧
         fieldIdx ∉ ep.exceptFields) ∨
       (∃ p ∈ (AMap.get? pm.fieldPausesObj fieldIdx).getD [],
         startMin < p.pto ∧ p.pfrom < startMin + slotMinutes)) := by
  unfold isPaused
  dsimp only
  split_ifs with h1 h2
  · simp only [true_iff]
    rcases List.any_eq_true.mp h1 with ⟨p, hp, hov⟩
    exact Or.inl ⟨p, hp, overlaps_iff.mp hov⟩
  · simp only [true_iff]
    rcases hep : pm.exceptPause with _ | ep
    · rw [hep] at h2; cases h2
    · rw [hep] at h2
      rw [Bool.and_eq_true] at h2
      obtain ⟨hov, hnin⟩ := h2
      refine Or.inr (Or.inl ⟨ep, rfl, overlaps_iff.mp hov, ?_⟩)
      intro hmem
      rw [Bool.not_eq_true', List.contains_eq_any_beq] at hnin
      exact (by simpa using List.any_eq_false.mp hnin fieldIdx hmem :
        fieldIdx ≠ fieldIdx) rfl
  · constructor
    · intro h3
      rcases List.any_eq_true.mp h3 with ⟨p, hp, hov⟩
      exact Or.inr (Or.inr ⟨p, hp, overlaps_iff.mp hov⟩)
    · intro h3
      rcases h3 with ⟨p, hp, hov⟩ | ⟨ep, hep, hov, hnin⟩ | ⟨p, hp, hov⟩
      · exact absurd (List.any_eq_true.mpr ⟨p, hp, overlaps_iff.mpr hov⟩) h1
      · exfalso
        apply h2
        rw [hep, Bool.and_eq_true]
        exact ⟨overlaps_iff.mpr hov, by simpa using hnin⟩
      · exact List.any_eq_true.mpr ⟨p, hp, overlaps_iff.mpr hov⟩

/-- Example pause model: one field pause 12:00 to 12:30 on field 1. -/
def pmFieldNoon : PauseModel :=
  { globalPauses := [], exceptPause := none, fieldPausesObj := [(1, [⟨720, 750⟩])] }

/-- C6: a cell is blocked exactly when its occupied interval
`[t, t + slot)` overlaps an applicable pause window (a global pause, the
except-pause when the field is outside its allow-list, or a field pause of
that field) under half-open overlap semantics `a1 < b2 ∧ b1 < a2`; with
slot 15, a field pause 12:00 to 12:30 blocks a cell starting 12:15 (735)
but not one starting 12:30 (750). -/
theorem c6_pause_blocking :
    (∀ (pm : PauseModel) (slotMinutes fieldIdx startMin : Nat),
      isPaused pm slotMinutes fieldIdx startMin = true ↔
        ((∃ p ∈ pm.globalPauses, startMin < p.pto ∧ p.pfrom < startMin + slotMinutes) ∨
         (∃ ep, pm.exceptPause = some ep ∧
           (startMin < ep.pto ∧ ep.pfrom < startMin + slotMinutes) ∧
           fieldIdx ∉ ep.exceptFields) ∨
         (∃ p ∈ (AMap.get? pm.fieldPausesObj fieldIdx).getD [],
           startMin < p.pto ∧ p.pfrom < startMin + slotMinutes))) ∧
    isPaused pmFieldNoon 15 1 735 = true ∧
    isPaused pmFieldNoon 15 1 750 = false :=
  ⟨isPaused_iff, by decide, by decide⟩

/-! ## Pre-flight feasibility (claim C2) -/

/-- C2: when the team count is below the minimum, above the maximum, or the
required pairings exceed the open cells, generation returns an error whose
message carries the exact counts, and the previously persisted match set is
returned untouched. -/
theorem c2_preflight_failure (inp : GenInput) (prev : List ScheduledMatch)
    (h : inp.teams.length < inp.min_teams.getD 2 ∨
         inp.teams.length > inp.max_teams.getD 24 ∨
         requiredPairings inp > openCells inp) :
    persistGenerate prev inp = prev ∧
      ((inp.teams.length < inp.min_teams.getD 2 ∧
          generateRun inp = .error (msgTooFew inp.teams.length (inp.min_teams.getD 2))) ∨
       (¬ inp.teams.length < inp.min_teams.getD 2 ∧
          inp.teams.length > inp.max_teams.getD 24 ∧
          generateRun inp = .error (msgTooMany inp.teams.length (inp.max_teams.getD 24))) ∨
       (¬ inp.teams.length < inp.min_teams.getD 2 ∧
          ¬ inp.teams.length > inp.max_teams.getD 24 ∧
          requiredPairings inp > openCells inp ∧
          generateRun inp = .error (msgCapacity (requiredPairings inp) (openCells inp)))) := by
  by_cases h1 : inp.teams.length < inp.min_teams.getD 2
  · have hg : generateRun inp = .error (msgTooFew inp.teams.length (inp.min_teams.getD 2)) := by
      unfold generateRun
      rw [if_pos h1]
    exact ⟨by unfold persistGenerate; rw [hg], Or.inl ⟨h1, hg⟩⟩
  · by_cases h2 : inp.teams.length > inp.max_teams.getD 24
    · have hg : generateRun inp = .error (msgTooMany inp.teams.length (inp.max_teams.getD 24)) := by
        unfold generateRun
        rw [if_neg h1, if_pos h2]
      exact ⟨by unfold persistGenerate; rw [hg], Or.inr (Or.inl ⟨h1, h2, hg⟩)⟩
    · have h3 : requiredPairings inp > openCells inp := by
        rcases h with h | h | h
        · exact absurd h h1
        · exact absurd h h2
        · exact h
      have hg : generateRun inp = .error (msgCapacity (requiredPairings inp) (openCells inp)) := by
        unfold generateRun
        rw [if_neg h1, if_neg h2, if_pos h3]
      exact ⟨by unfold persistGenerate; rw [hg], Or.inr (Or.inr ⟨h1, h2, h3, hg⟩)⟩

/-- Thirty anonymous teams. -/
def teams30 : List Team := (List.range 30).map (fun i => ⟨toString i, none⟩)

/-- Configuration of the spec scenario: 30 teams against a maximum of 24. -/
def inp30 : GenInput :=
  { teams := teams30, min_teams := some 2, max_teams := some 24,
    startMin := 540, endMin := 600, match_duration_min := 10,
    rotation_duration_min := 5, num_fields := 1,
    pauses := ⟨[], none, []⟩, showGroups := false, group_count := none }

theorem c2_preflight_failure_witness :
    persistGenerate [⟨"X", "Y", 1, 540⟩] inp30 = [⟨"X", "Y", 1, 540⟩] ∧
    generateRun inp30 = .error (msgTooMany 30 24) :=
  have hmain := c2_preflight_failure inp30 [⟨"X", "Y", 1, 540⟩]
    (Or.inr (Or.inl (by decide)))
  ⟨hmain.1, by
    rcases hmain.2 with ⟨hlt, _⟩ | ⟨_, _, hg⟩ | ⟨_, hgt, _⟩
    · exact absurd hlt (by decide)
    · refine hg.trans ?_
      have h30 : inp30.teams.length = 30 := by decide
      rw [h30]
      rfl
    · exact absurd (by decide : inp30.teams.length > 24) hgt⟩

/-! ## Manual-edit helpers -/

theorem matchMapGet_spec {rows : List MatchRow} {t f : Nat} {m : MatchRow}
    (h : matchMapGet rows t f = some m) :
    m ∈ rows ∧ m.start_time = t ∧ m.field_idx = f := by
  unfold matchMapGet at h
  have hmem : m ∈ rows.filter (fun m => m.start_time == t && m.field_idx == f) := by
    obtain ⟨hne, heq⟩ := List.mem_getLast?_eq_getLast (show m ∈ _ from h)
    rw [heq]
    exact List.getLast_mem hne
  have hp := List.of_mem_filter hmem
  refine ⟨List.mem_of_mem_filter hmem, ?_, ?_⟩
  · rw [Bool.and_eq_true] at hp
    exact eq_of_beq hp.1
  · rw [Bool.and_eq_true] at hp
    exact eq_of_beq hp.2

/-- With distinct ids, repositioning the first matching row is a `map`. -/
theorem moveMatch_eq_map {rows : List MatchRow} (hnd : (rows.map MatchRow.id).Nodup)
    (mid : String) (nt nf : Nat) :
    moveMatch mid nt nf rows = rows.map (fun m =>
      if m.id = mid then { m with start_time := nt, field_idx := nf } else m) := by
  induction rows with
  | nil => rfl
  | cons m rest ih =>
    rw [List.map_cons] at hnd ⊢
    by_cases h : m.id = mid
    · have hnot : ∀ x ∈ rest, ¬ x.id = mid := by
        intro x hx he
        have hin : m.id ∈ List.map MatchRow.id rest := by
          rw [h, ← he]
          exact List.mem_map_of_mem MatchRow.id hx
        exact (List.nodup_cons.mp hnd).1 hin
      rw [moveMatch, if_pos h, if_pos h]
      congr 1
      have : ∀ x ∈ rest,
          (if x.id = mid then { x with start_time := nt, field_idx := nf } else x) = x := by
        intro x hx
        rw [if_neg (hnot x hx)]
      rw [List.map_congr_left this, List.map_id']
    · rw [moveMatch, if_neg h, if_neg h, ih (List.nodup_cons.mp hnd).2]

theorem moveMatch_eq_map_id (rows : List MatchRow) (mid : String) (nt nf : Nat) :
    (moveMatch mid nt nf rows).map MatchRow.id = rows.map MatchRow.id := by
  induction rows with
  | nil => rfl
  | cons m rest ih =>
    by_cases h : m.id = mid
    · rw [moveMatch, if_pos h]
      rfl
    · rw [moveMatch, if_neg h, List.map_cons, List.map_cons, ih]

/-! ## Claim C9: save persists exactly the changed rows -/

theorem mem_computeUpdates {orig : AMap String (Nat × Nat)} {rows : List MatchRow}
    {u : String × Nat × Nat} :
    u ∈ computeUpdates orig rows ↔
      ∃ m ∈ rows, ∃ o, AMap.get? orig m.id = some o ∧
        o ≠ (m.start_time, m.field_idx) ∧ u = (m.id, m.start_time, m.field_idx) := by
  unfold computeUpdates
  rw [List.mem_filterMap]
  constructor
  · rintro ⟨m, hm, hf⟩
    rcases ho : AMap.get? orig m.id with _ | o
    · rw [ho] at hf; cases hf
    · simp only [ho] at hf
      by_cases hne : o ≠ (m.start_time, m.field_idx)
      · rw [if_pos hne] at hf
        exact ⟨m, hm, o, ho, hne, (Option.some_inj.mp hf).symm⟩
      · rw [if_neg hne] at hf; cases hf
  · rintro ⟨m, hm, o, ho, hne, rfl⟩
    refine ⟨m, hm, ?_⟩
    simp only [ho]
    rw [if_pos hne]

/-- The per-row accumulated update function. -/
def applyAll (us : List (String × Nat × Nat)) (r : MatchRow) : MatchRow :=
  us.foldl (fun r u =>
    if r.id = u.1 then { r with start_time := u.2.1, field_idx := u.2.2 } else r) r

theorem foldl_dbApplyUpdate_eq_map (db : List MatchRow)
    (us : List (String × Nat × Nat)) :
    us.foldl dbApplyUpdate db = db.map (applyAll us) := by
  induction us generalizing db with
  | nil => exact (List.map_id'' (fun r => rfl) db).symm
  | cons u rest ih =>
    rw [List.foldl_cons, ih]
    unfold dbApplyUpdate
    rw [List.map_map]
    rfl

theorem applyAll_id (us : List (String × Nat × Nat)) (r : MatchRow) :
    (applyAll us r).id = r.id := by
  induction us generalizing r with
  | nil => rfl
  | cons u rest ih =>
    rw [applyAll, List.foldl_cons]
    by_cases h : r.id = u.1
    · rw [if_pos h]
      exact ih _
    · rw [if_neg h]
      exact ih r

theorem applyAll_of_not_mem {us : List (String × Nat × Nat)} {r : MatchRow}
    (h : ∀ u ∈ us, r.id ≠ u.1) : applyAll us r = r := by
  induction us with
  | nil => rfl
  | cons u rest ih =>
    rw [applyAll, List.foldl_cons, if_neg (h u (List.mem_cons_self u rest))]
    exact ih (fun v hv => h v (List.mem_cons_of_mem u hv))

theorem applyAll_of_unique {us : List (String × Nat × Nat)} {r : MatchRow}
    {u : String × Nat × Nat} (hnd : (us.map Prod.fst).Nodup) (hu : u ∈ us)
    (hid : u.1 = r.id) :
    applyAll us r = { r with start_time := u.2.1, field_idx := u.2.2 } := by
  induction us with
  | nil => cases hu
  | cons v rest ih =>
    rw [List.map_cons, List.nodup_cons] at hnd
    rcases List.mem_cons.mp hu with rfl | hmem
    · rw [applyAll, List.foldl_cons, if_pos hid.symm]
      have : ∀ w ∈ rest,
          ({ r with start_time := u.2.1, field_idx := u.2.2 } : MatchRow).id ≠ w.1 := by
        intro w hw he
        exact hnd.1 (by
          rw [show u.1 = w.1 from (hid.trans he : u.1 = w.1)]
          exact List.mem_map_of_mem Prod.fst hw)
      exact applyAll_of_not_mem this
    · have hvne : r.id ≠ v.1 := by
        intro he
        apply hnd.1
        rw [← he, ← hid]
        exact List.mem_map_of_mem Prod.fst hmem
      rw [applyAll, List.foldl_cons, if_neg hvne]
      exact ih hnd.2 hmem

theorem computeUpdates_ids_sublist (orig : AMap String (Nat × Nat))
    (rows : List MatchRow) :
    ((computeUpdates orig rows).map Prod.fst).Sublist (rows.map MatchRow.id) := by
  induction rows with
  | nil => exact List.Sublist.refl _
  | cons m rest ih =>
    unfold computeUpdates at ih ⊢
    rw [List.filterMap_cons]
    rcases ho : AMap.get? orig m.id with _ | o
    · simp only [ho]
      rw [List.map_cons]
      exact ih.cons _
    · simp only [ho]
      by_cases hne : o ≠ (m.start_time, m.field_idx)
      · rw [if_pos hne]
        dsimp only
        rw [List.map_cons, List.map_cons]
        exact ih.cons₂ _
      · rw [if_neg hne]
        dsimp only
        rw [List.map_cons]
        exact ih.cons _

theorem saveManualEdits_saved_inv {orig : AMap String (Nat × Nat)}
    {rows db db' : List MatchRow} {updates : List (String × Nat × Nat)}
    (h : saveManualEdits orig rows db = (db', .saved updates)) :
    findDupTime [] rows = none ∧ updates = computeUpdates orig rows ∧
      db' = updates.foldl dbApplyUpdate db := by
  unfold saveManualEdits at h
  by_cases h1 : orig.isEmpty
  · rw [if_pos h1] at h
    simp at h
  · rw [if_neg h1] at h
    dsimp only at h
    rcases hdup : findDupTime [] rows with _ | t
    · rw [hdup] at h
      by_cases h2 : (computeUpdates orig rows).length = 0
      · rw [if_pos h2] at h
        simp at h
      · rw [if_neg h2] at h
        have h3 := (Prod.mk.injEq _ _ _ _).mp h
        have h4 : updates = computeUpdates orig rows := by
          cases h3.2
          rfl
        exact ⟨rfl, h4, by rw [h4]; exact h3.1.symm⟩
    · rw [hdup] at h
      simp at h

/-- C9: a successful save writes exactly the rows whose (start, field) pair
differs from the snapshot, and every persisted row whose id is not among the
written updates is untouched (same value at the same position). -/
theorem c9_save_diff {orig : AMap String (Nat × Nat)} {rows db db' : List MatchRow}
    {updates : List (String × Nat × Nat)}
    (hsave : saveManualEdits orig rows db = (db', .saved updates)) :
    (∀ u, u ∈ updates ↔ ∃ m ∈ rows, ∃ o, AMap.get? orig m.id = some o ∧
        o ≠ (m.start_time, m.field_idx) ∧ u = (m.id, m.start_time, m.field_idx)) ∧
    db'.length = db.length ∧
    (∀ i r, db.get? i = some r → r.id ∉ updates.map Prod.fst →
      db'.get? i = some r) := by
  obtain ⟨hdup, hupd, hdb⟩ := saveManualEdits_saved_inv hsave
  subst hupd
  refine ⟨fun u => mem_computeUpdates, ?_, ?_⟩
  · rw [hdb, foldl_dbApplyUpdate_eq_map]
    exact List.length_map db _
  · intro i r hget hnot
    rw [hdb, foldl_dbApplyUpdate_eq_map, List.get?_map, hget]
    have : applyAll (computeUpdates orig rows) r = r := by
      apply applyAll_of_not_mem
      intro u hu he
      exact hnot (he ▸ List.mem_map_of_mem Prod.fst hu)
    rw [Option.map_some', this]

/-- A one-row grid moved from field 1 to field 2. -/
def rowM1 : MatchRow := ⟨"m1", 540, 1, "A", "B"⟩

def rowM1Moved : MatchRow := ⟨"m1", 540, 2, "A", "B"⟩

theorem c9_save_diff_witness :
    saveManualEdits (snapshotPositions [rowM1]) [rowM1Moved] [rowM1] =
      ([rowM1Moved], .saved [("m1", 540, 2)]) ∧
    (("m1", 540, 2) ∈ ([("m1", (540 : Nat), (2 : Nat))] : List (String × Nat × Nat)) ↔
      ∃ m ∈ [rowM1Moved], ∃ o, AMap.get? (snapshotPositions [rowM1]) m.id = some o ∧
        o ≠ (m.start_time, m.field_idx) ∧
        ("m1", 540, 2) = (m.id, m.start_time, m.field_idx)) := by
  constructor
  · decide
  · exact (@c9_save_diff (snapshotPositions [rowM1]) [rowM1Moved] [rowM1]
      [rowM1Moved] [("m1", 540, 2)] (by decide)).1 ("m1", 540, 2)

/-! ## Claim C10: accepted gestures only reposition matches -/

theorem map_id_of_pres {rows : List MatchRow} {f : MatchRow → MatchRow}
    (hf : ∀ m, (f m).id = m.id) :
    (rows.map f).map MatchRow.id = rows.map MatchRow.id := by
  rw [List.map_map]
  exact List.map_congr_left (fun m _ => hf m)

theorem onCellClick_accepted (pm : PauseModel) (slotM : Nat) (rows : List MatchRow)
    (sTime sField hhmm fieldIdx : Nat)
    (hne : ¬ ((sTime, sField) = (hhmm, fieldIdx)))
    (hp2 : isPaused pm slotM fieldIdx hhmm = false)
    (hp1 : isPaused pm slotM sField sTime = false) :
    onCellClick pm slotM rows (some (sTime, sField)) hhmm fieldIdx =
      ⟨(match matchMapGet rows sTime sField, matchMapGet rows hhmm fieldIdx with
        | some ma, some mb =>
          moveMatch mb.id sTime sField (moveMatch ma.id mb.start_time mb.field_idx rows)
        | some ma, none => moveMatch ma.id hhmm fieldIdx rows
        | none, some mb => moveMatch mb.id sTime sField rows
        | none, none => rows).mergeSort matchLe, none, none⟩ := by
  unfold onCellClick
  rw [hp2]
  dsimp only
  rw [if_neg hne, hp1]
  simp

/-- C10: an accepted swap/move gesture only repositions: the resulting grid
is a permutation of the old grid transformed by a function that preserves
id, home team and away team of every row, and changes only rows whose id is
among the (at most two) matches sitting on the two selected cells. -/
theorem c10_gesture_frame (pm : PauseModel) (slotM : Nat) (rows : List MatchRow)
    (sTime sField hhmm fieldIdx : Nat)
    (hnd : (rows.map MatchRow.id).Nodup)
    (hne : ¬ ((sTime, sField) = (hhmm, fieldIdx)))
    (hp2 : isPaused pm slotM fieldIdx hhmm = false)
    (hp1 : isPaused pm slotM sField sTime = false) :
    ∃ g : MatchRow → MatchRow, ∃ involved : List String,
      involved.length ≤ 2 ∧
      (∀ m, (g m).id = m.id ∧ (g m).home_team_id = m.home_team_id ∧
        (g m).away_team_id = m.away_team_id) ∧
      (∀ m, g m ≠ m → m.id ∈ involved) ∧
      (onCellClick pm slotM rows (some (sTime, sField)) hhmm fieldIdx).rows.Perm
        (rows.map g) := by
  rw [onCellClick_accepted pm slotM rows sTime sField hhmm fieldIdx hne hp2 hp1]
  rcases ha : matchMapGet rows sTime sField with _ | ma <;>
    rcases hb : matchMapGet rows hhmm fieldIdx with _ | mb
  · refine ⟨fun m => m, [], by simp, fun m => ⟨rfl, rfl, rfl⟩,
      fun m hm => absurd rfl hm, ?_⟩
    dsimp only
    rw [List.map_id']
    exact List.mergeSort_perm rows _
  · refine ⟨fun m => if m.id = mb.id then
        { m with start_time := sTime, field_idx := sField } else m, [mb.id], by simp,
      ?_, ?_, ?_⟩
    · intro m
      by_cases h : m.id = mb.id <;> simp [h]
    · intro m hm
      by_cases h : m.id = mb.id
      · simp [h]
      · simp [h] at hm
    · dsimp only
      rw [← moveMatch_eq_map hnd]
      exact List.mergeSort_perm _ _
  · refine ⟨fun m => if m.id = ma.id then
        { m with start_time := hhmm, field_idx := fieldIdx } else m, [ma.id], by simp,
      ?_, ?_, ?_⟩
    · intro m
      by_cases h : m.id = ma.id <;> simp [h]
    · intro m hm
      by_cases h : m.id = ma.id
      · simp [h]
      · simp [h] at hm
    · dsimp only
      rw [← moveMatch_eq_map hnd]
      exact List.mergeSort_perm _ _
  · obtain ⟨hma, hma1, hma2⟩ := matchMapGet_spec ha
    obtain ⟨hmb, hmb1, hmb2⟩ := matchMapGet_spec hb
    have hidne : ma.id ≠ mb.id := by
      intro he
      have heq := List.inj_on_of_nodup_map hnd hma hmb he
      apply hne
      rw [← hma1, ← hma2, ← hmb1, ← hmb2, heq]
    have hba : ¬ mb.id = ma.id := fun h => hidne h.symm
    refine ⟨fun m =>
      if m.id = ma.id then { m with start_time := mb.start_time, field_idx := mb.field_idx }
      else if m.id = mb.id then { m with start_time := sTime, field_idx := sField }
      else m, [ma.id, mb.id], by simp, ?_, ?_, ?_⟩
    · intro m
      by_cases h1 : m.id = ma.id
      · simp [h1]
      · by_cases h2 : m.id = mb.id <;> simp [h1, h2, hba]
    · intro m hm
      by_cases h1 : m.id = ma.id
      · simp [h1]
      · by_cases h2 : m.id = mb.id
        · simp [h2]
        · simp [h1, h2] at hm
    · dsimp only
      have h1 := moveMatch_eq_map hnd ma.id mb.start_time mb.field_idx
      have hpres : ∀ m : MatchRow,
          ((fun m => if m.id = ma.id then
            { m with start_time := mb.start_time, field_idx := mb.field_idx } else m) m).id
            = m.id := by
        intro m
        by_cases h : m.id = ma.id <;> simp [h]
      have hnd1 : ((moveMatch ma.id mb.start_time mb.field_idx rows).map MatchRow.id).Nodup := by
        rw [h1, map_id_of_pres hpres]
        exact hnd
      have h2 := moveMatch_eq_map hnd1 mb.id sTime sField
      rw [h2, h1, List.map_map]
      refine (List.mergeSort_perm _ _).trans (List.Perm.of_eq ?_)
      apply List.map_congr_left
      intro m _
      by_cases hc1 : m.id = ma.id
      · have hc3 : ¬ (ma.id = mb.id) := hidne
        simp [Function.comp, hc1, hc3]
      · by_cases hc2 : m.id = mb.id <;> simp [Function.comp, hc1, hc2, hba]

/-- One-match grid for the gesture witness. -/
def rowsC10 : List MatchRow := [⟨"m1", 540, 1, "A", "B"⟩]

theorem c10_gesture_frame_witness :
    ∃ g : MatchRow → MatchRow, ∃ involved : List String,
      involved.length ≤ 2 ∧
      (∀ m, (g m).id = m.id ∧ (g m).home_team_id = m.home_team_id ∧
        (g m).away_team_id = m.away_team_id) ∧
      (∀ m, g m ≠ m → m.id ∈ involved) ∧
      (onCellClick pmFieldNoon 15 rowsC10 (some (540, 1)) 555 1).rows.Perm
        (rowsC10.map g) :=
  c10_gesture_frame pmFieldNoon 15 rowsC10 540 1 555 1 (by decide) (by decide)
    (by decide) (by decide)

/-! ## Claim C8: per-gesture double-booking validation -/

/-- Pause model with no pauses at all. -/
def pmNone : PauseModel := ⟨[], none, []⟩

/-- Grid of the counterexample: m1 (A vs B) at (0, field 1), m2 (A vs C) at
(15, field 1). -/
def rowsC8 : List MatchRow :=
  [⟨"m1", 0, 1, "A", "B"⟩, ⟨"m2", 15, 1, "A", "C"⟩]

/-- C8 counterexample: moving m2 (teams A and C) onto the empty cell
(0, field 2) double-books team A at time 0, yet the gesture is committed:
the in-memory grid changes, no rejection message is produced, and the
resulting grid fails the very duplicate check the save routine would run. -/
theorem c8_counterexample :
    (onCellClick pmNone 15 rowsC8 (some (15, 1)) 0 2).rows ≠ rowsC8 ∧
    (onCellClick pmNone 15 rowsC8 (some (15, 1)) 0 2).statusMsg = none ∧
    findDupTime [] (onCellClick pmNone 15 rowsC8 (some (15, 1)) 0 2).rows = some 0 := by
  have hacc := onCellClick_accepted pmNone 15 rowsC8 15 1 0 2 (by decide) (by decide) (by decide)
  have h1 : matchMapGet rowsC8 15 1 = some ⟨"m2", 15, 1, "A", "C"⟩ := by decide
  have h2 : matchMapGet rowsC8 0 2 = none := by decide
  have hrows : (onCellClick pmNone 15 rowsC8 (some (15, 1)) 0 2).rows =
      [⟨"m1", 0, 1, "A", "B"⟩, ⟨"m2", 0, 2, "A", "C"⟩] := by
    rw [hacc]
    dsimp only
    rw [h1, h2]
    dsimp only
    have h3 : moveMatch "m2" 0 2 rowsC8 =
        [⟨"m1", 0, 1, "A", "B"⟩, ⟨"m2", 0, 2, "A", "C"⟩] := by decide
    rw [h3]
    exact List.mergeSort_of_sorted (by decide)
  refine ⟨?_, ?_, ?_⟩
  · rw [hrows]; decide
  · rw [hacc]
  · rw [hrows]; decide

/-- C8 (amended): the duplicate check runs at save time instead: when the
in-memory grid double-books a team at time slot `t`, `saveManualEdits`
rejects the whole save, leaves the persisted rows untouched and reports `t`
(the in-memory grid itself is not rolled back). -/
theorem c8_amended_save_rejects {orig : AMap String (Nat × Nat)}
    {rows db : List MatchRow} {t : Nat}
    (hne : orig.isEmpty = false) (hdup : findDupTime [] rows = some t) :
    saveManualEdits orig rows db = (db, .invalidDup t) := by
  unfold saveManualEdits
  rw [if_neg (by simp [hne])]
  dsimp only
  rw [hdup]

/-- The counterexample grid after the accepted gesture: A is double-booked
at time 0. -/
def rowsC8dup : List MatchRow :=
  [⟨"m1", 0, 1, "A", "B"⟩, ⟨"m2", 0, 2, "A", "C"⟩]

theorem c8_amended_save_rejects_witness :
    saveManualEdits [("m1", (0, 1))] rowsC8dup [] = ([], .invalidDup 0) :=
  c8_amended_save_rejects (by decide) (by decide)

/-! ## Engine lemmas for the no-double-booking invariant -/

theorem contains_false_iff {α : Type} [DecidableEq α] {l : List α} {x : α} :
    l.contains x = false ↔ x ∉ l := by
  rw [← Bool.not_eq_true, not_iff_not]
  exact List.elem_iff

theorem swapSeq_length (l : List SeqPair) (i j : Nat) :
    (swapSeq l i j).length = l.length := by
  unfold swapSeq
  rcases hx : l.get? i with _ | x
  · rfl
  · rcases hy : l.get? j with _ | y
    · rfl
    · rw [List.length_set, List.length_set]

theorem mem_swapSeq {l : List SeqPair} {i j : Nat} {p : SeqPair}
    (h : p ∈ swapSeq l i j) : p ∈ l := by
  unfold swapSeq at h
  rcases hx : l.get? i with _ | x
  · rw [hx] at h; exact h
  · rcases hy : l.get? j with _ | y
    · rw [hx, hy] at h; exact h
    · rw [hx, hy] at h
      rcases List.mem_or_eq_of_mem_set h with h1 | h1
      · rcases List.mem_or_eq_of_mem_set h1 with h2 | h2
        · exact h2
        · exact h2 ▸ List.get?_mem hy
      · exact h1 ▸ List.get?_mem hx

theorem swapSeq_get?_fst {l : List SeqPair} {i j : Nat} {y : SeqPair}
    (hy : l.get? j = some y) (hi : i < l.length) :
    (swapSeq l i j).get? i = some y := by
  have hx : ∃ x, l.get? i = some x := by
    rcases h : l.get? i with _ | x
    · rw [List.get?_eq_getElem?, List.getElem?_eq_none_iff] at h
      omega
    · exact ⟨x, rfl⟩
  obtain ⟨x, hx⟩ := hx
  unfold swapSeq
  rw [hx, hy]
  by_cases hij : i = j
  · subst hij
    rw [List.get?_eq_getElem?, List.getElem?_set_self (by rwa [List.length_set])]
    rw [hx] at hy
    exact congrArg some (Option.some_inj.mp hy)
  · rw [List.get?_eq_getElem?, List.getElem?_set_ne (fun h => hij h.symm),
      List.getElem?_set_self (by simpa using hi)]

/-- One step of the window scan loop (body of `for i in [ptr, endPtr)`). -/
theorem scanStep_spec (gc : Nat) (st : RunState) (bs : List String) (slot : Slot)
    (p : Bool) (acc : Option (Nat × Nat)) (j : Nat) {y : Nat × Nat}
    (h : scanStep gc st bs slot p acc j = some y) :
    acc = some y ∨ (y.1 = j ∧ ∃ cand, st.sequence.get? j = some cand ∧
      candidateOk gc st bs slot p cand = true) := by
  unfold scanStep at h
  rcases hc : st.sequence.get? j with _ | cand
  · rw [hc] at h
    exact Or.inl h
  · rw [hc] at h
    dsimp only at h
    by_cases hok : candidateOk gc st bs slot p cand = true
    · rw [if_pos hok] at h
      rcases hacc : acc with _ | b
      · rw [hacc] at h
        dsimp only at h
        exact Or.inr ⟨congrArg Prod.fst (Option.some_inj.mp h).symm, cand, rfl, hok⟩
      · rw [hacc] at h
        obtain ⟨bi, bsc⟩ := b
        dsimp only at h
        by_cases hlt : candScore st slot p j cand < bsc
        · rw [if_pos hlt] at h
          exact Or.inr ⟨congrArg Prod.fst (Option.some_inj.mp h).symm, cand, rfl, hok⟩
        · rw [if_neg hlt] at h
          exact Or.inl h
    · rw [if_neg hok] at h
      exact Or.inl h

theorem foldl_scanStep_spec (gc : Nat) (st : RunState) (bs : List String)
    (slot : Slot) (p : Bool) (l : List Nat) :
    ∀ (acc : Option (Nat × Nat)) {y : Nat × Nat},
      l.foldl (scanStep gc st bs slot p) acc = some y →
      acc = some y ∨ (y.1 ∈ l ∧ ∃ cand, st.sequence.get? y.1 = some cand ∧
        candidateOk gc st bs slot p cand = true) := by
  induction l with
  | nil =>
    intro acc y h
    exact Or.inl h
  | cons j rest ih =>
    intro acc y h
    rw [List.foldl_cons] at h
    rcases ih _ h with h1 | h1
    · rcases scanStep_spec gc st bs slot p acc j h1 with h2 | h2
      · exact Or.inl h2
      · refine Or.inr ⟨?_, ?_⟩
        · rw [h2.1]
          exact List.mem_cons_self j rest
        · rw [h2.1]
          exact h2.2
    · exact Or.inr ⟨List.mem_cons_of_mem j h1.1, h1.2⟩

theorem scanPass_some (gc : Nat) (st : RunState) (bs : List String) (slot : Slot)
    (p : Bool) {i : Nat} (h : scanPass gc st bs slot p = some i) :
    st.ptr ≤ i ∧ ∃ cand, st.sequence.get? i = some cand ∧
      candidateOk gc st bs slot p cand = true := by
  unfold scanPass at h
  dsimp only at h
  rcases hf : (List.range' st.ptr (min st.sequence.length (st.ptr + 180) - st.ptr)).foldl
      (scanStep gc st bs slot p) none with _ | y
  · rw [hf] at h; cases h
  · rw [hf] at h
    have hy : y.1 = i := Option.some_inj.mp h
    rcases foldl_scanStep_spec gc st bs slot p _ none hf with h1 | h1
    · cases h1
    · obtain ⟨hmem, hc⟩ := h1
      rw [List.mem_range'] at hmem
      obtain ⟨k, _, hk⟩ := hmem
      exact ⟨by omega, hy ▸ hc⟩

theorem chooseCandidate_some (gc : Nat) (st : RunState) (bs : List String)
    (slot : Slot) {i : Nat} (h : chooseCandidate gc st bs slot = some i) :
    st.ptr ≤ i ∧ ∃ cand, st.sequence.get? i = some cand ∧
      (candidateOk gc st bs slot true cand = true ∨
       candidateOk gc st bs slot false cand = true) := by
  unfold chooseCandidate at h
  rcases h1 : scanPass gc st bs slot true with _ | j
  · rw [h1] at h
    obtain ⟨hle, cand, hc, hok⟩ := scanPass_some gc st bs slot false h
    exact ⟨hle, cand, hc, Or.inr hok⟩
  · rw [h1] at h
    obtain ⟨hle, cand, hc, hok⟩ := scanPass_some gc st bs slot true h1
    cases h
    exact ⟨hle, cand, hc, Or.inl hok⟩

/-- The busy and equity conclusions shared by both passes of the filter. -/
theorem candidateOk_spec {gc : Nat} {st : RunState} {bs : List String}
    {slot : Slot} {p : Bool} {cand : SeqPair}
    (h : candidateOk gc st bs slot p cand = true) :
    cand.a ∉ bs ∧ cand.b ∉ bs ∧
    (minMaxGlobalAfter st cand.a cand.b).2 ≤ (minMaxGlobalAfter st cand.a cand.b).1 + 1 ∧
    (minMaxGroupAfter st (clampG gc cand.groupIdx) cand.a cand.b).2 ≤
      (minMaxGroupAfter st (clampG gc cand.groupIdx) cand.a cand.b).1 + 1 := by
  unfold candidateOk at h
  by_cases hb : (bs.contains cand.a || bs.contains cand.b) = true
  · rw [if_pos hb] at h; cases h
  · rw [if_neg hb] at h
    rw [Bool.or_eq_true, not_or] at hb
    have ha' : cand.a ∉ bs :=
      contains_false_iff.mp (Bool.not_eq_true _ ▸ hb.1 : bs.contains cand.a = false)
    have hb' : cand.b ∉ bs :=
      contains_false_iff.mp (Bool.not_eq_true _ ▸ hb.2 : bs.contains cand.b = false)
    by_cases hrest : (p && !(restOkStrict st cand.a slot.timeIndex &&
        restOkStrict st cand.b slot.timeIndex)) = true
    · rw [if_pos hrest] at h; cases h
    · rw [if_neg hrest] at h
      dsimp only at h
      by_cases hg : (minMaxGlobalAfter st cand.a cand.b).2 -
          (minMaxGlobalAfter st cand.a cand.b).1 > 1
      · rw [if_pos hg] at h; cases h
      · rw [if_neg hg] at h
        by_cases hgr : (minMaxGroupAfter st (clampG gc cand.groupIdx) cand.a cand.b).2 -
            (minMaxGroupAfter st (clampG gc cand.groupIdx) cand.a cand.b).1 > 1
        · rw [if_pos hgr] at h; cases h
        · exact ⟨ha', hb', by omega, by omega⟩

/-! ## No-double-booking invariant of the placement loop -/

/-- The two team ids of an emitted match. -/
def teamsOfMatch (m : ScheduledMatch) : List String :=
  [m.home_team_id, m.away_team_id]

/-- No team appears in two matches sharing a start time. -/
def noDoubleBooking (ms : List ScheduledMatch) : Prop :=
  ms.Pairwise (fun m1 m2 => m1.start_time = m2.start_time →
    ∀ t ∈ teamsOfMatch m1, t ∉ teamsOfMatch m2)

/-- The busy set of a time slot covers the teams of every match scheduled
at that time. -/
def BusyInv (st : RunState) : Prop :=
  ∀ m ∈ st.scheduled, ∀ t ∈ teamsOfMatch m,
    t ∈ (AMap.get? st.busyAtTime m.start_time).getD []

theorem stepSlot_preserves (gc : Nat) (st : RunState) (slot : Slot)
    (h1 : BusyInv st) (h2 : noDoubleBooking st.scheduled) :
    BusyInv (stepSlot gc st slot) ∧ noDoubleBooking (stepSlot gc st slot).scheduled := by
  unfold stepSlot
  by_cases hguard : st.ptr ≥ st.sequence.length
  · rw [if_pos hguard]
    exact ⟨h1, h2⟩
  · rw [if_neg hguard]
    dsimp only
    set st1 : RunState := if AMap.hasKey st.busyAtTime slot.start then st
      else { st with busyAtTime := AMap.set st.busyAtTime slot.start [] } with hst1
    have hst1sched : st1.scheduled = st.scheduled := by
      rw [hst1]; split_ifs <;> rfl
    have hst1seq : st1.sequence = st.sequence := by
      rw [hst1]; split_ifs <;> rfl
    have h1' : BusyInv st1 := by
      rw [hst1]
      split_ifs with hk
      · exact h1
      · intro m hm t ht
        dsimp only
        by_cases hts : m.start_time = slot.start
        · exfalso
          have hcov := h1 m hm t ht
          have hk' : AMap.get? st.busyAtTime slot.start = none := by
            rcases ho : AMap.get? st.busyAtTime slot.start with _ | v
            · rfl
            · exact absurd (by unfold AMap.hasKey; rw [ho]; rfl) hk
          rw [hts, hk'] at hcov
          exact absurd hcov (List.not_mem_nil t)
        · rw [AMap.get?_set_ne st.busyAtTime [] (fun h => hts h.symm)]
          exact h1 m hm t ht
    have h2' : noDoubleBooking st1.scheduled := by rw [hst1sched]; exact h2
    rcases hcc : chooseCandidate gc st1 ((AMap.get? st1.busyAtTime slot.start).getD []) slot
      with _ | ci
    · exact ⟨h1', h2'⟩
    · obtain ⟨hle, cand, hcand, hok⟩ :=
        chooseCandidate_some gc st1 _ slot hcc
      have hbusy : cand.a ∉ (AMap.get? st1.busyAtTime slot.start).getD [] ∧
          cand.b ∉ (AMap.get? st1.busyAtTime slot.start).getD [] := by
        rcases hok with hok | hok
        · exact ⟨(candidateOk_spec hok).1, (candidateOk_spec hok).2.1⟩
        · exact ⟨(candidateOk_spec hok).1, (candidateOk_spec hok).2.1⟩
      unfold placeChosen
      dsimp only
      have hst1ptr : st1.ptr = st.ptr := by
        rw [hst1]; split_ifs <;> rfl
      have hptr : st1.ptr < st1.sequence.length := by
        rw [hst1ptr, hst1seq]
        omega
      have hchosen : (swapSeq st1.sequence st1.ptr ci).get? st1.ptr = some cand :=
        swapSeq_get?_fst hcand hptr
      rw [hchosen]
      dsimp only
      constructor
      · -- BusyInv after placing
        intro m hm t ht
        rw [List.mem_append] at hm
        rcases hm with hm | hm
        · by_cases hts : m.start_time = slot.start
          · rw [hts, AMap.get?_set_self]
            have hin := h1' m hm t ht
            rw [hts] at hin
            dsimp only [Option.getD_some]
            exact subset_ladd _ _ (subset_ladd _ _ hin)
          · rw [AMap.get?_set_ne _ _ (fun h => hts h.symm)]
            exact h1' m hm t ht
        · rw [List.mem_singleton] at hm
          subst hm
          dsimp only [teamsOfMatch] at ht
          rw [AMap.get?_set_self]
          dsimp only [Option.getD_some]
          rcases List.mem_cons.mp ht with rfl | ht
          · exact subset_ladd _ _ (mem_ladd.mpr (Or.inr rfl))
          · rw [List.mem_singleton] at ht
            subst ht
            exact mem_ladd.mpr (Or.inr rfl)
      · -- pairwise after placing
        unfold noDoubleBooking at h2' ⊢
        rw [List.pairwise_append]
        refine ⟨h2', List.pairwise_singleton _ _, ?_⟩
        intro m hm m' hm' hts t ht
        rw [List.mem_singleton] at hm'
        subst hm'
        dsimp only [teamsOfMatch]
        have hin := h1' m hm t ht
        rw [hts] at hin
        intro hmem
        rcases List.mem_cons.mp hmem with rfl | hmem
        · exact hbusy.1 hin
        · rw [List.mem_singleton] at hmem
          subst hmem
          exact hbusy.2 hin

theorem runLoop_preserves (gc : Nat) (slots : List Slot) (st : RunState)
    (h1 : BusyInv st) (h2 : noDoubleBooking st.scheduled) :
    BusyInv (runLoop gc slots st) ∧ noDoubleBooking (runLoop gc slots st).scheduled := by
  induction slots generalizing st with
  | nil => exact ⟨h1, h2⟩
  | cons slot rest ih =>
    obtain ⟨h1', h2'⟩ := stepSlot_preserves gc st slot h1 h2
    exact ih _ h1' h2'

theorem generateRun_ok_inv {inp : GenInput} {sched : List ScheduledMatch}
    (h : generateRun inp = .ok sched) :
    sched = (runLoop (groupCountOf inp)
      (allSlots inp.pauses inp.startMin inp.endMin (slotMinutesOf inp) inp.num_fields)
      (initState (groupCountOf inp) inp.num_fields inp.teams
        (buildSequence inp.showGroups (groupCountOf inp) inp.teams))).scheduled := by
  unfold generateRun at h
  split_ifs at h with hc1 hc2 hc3
  exact (Except.ok.inj h).symm

theorem generation_noDoubleBooking {inp : GenInput} {sched : List ScheduledMatch}
    (h : generateRun inp = .ok sched) : noDoubleBooking sched := by
  rw [generateRun_ok_inv h]
  refine (runLoop_preserves _ _ _ ?_ ?_).2
  · intro m hm
    exact absurd hm (List.not_mem_nil m)
  · exact List.Pairwise.nil

/-! ## Save-side no-double-booking -/

/-- The two team ids of a displayed row. -/
def rowTeams (m : MatchRow) : List String := [m.home_team_id, m.away_team_id]

/-- No team appears in two rows sharing a start time. -/
def rowsNoDoubleBooking (rows : List MatchRow) : Prop :=
  rows.Pairwise (fun m1 m2 => m1.start_time = m2.start_time →
    ∀ t ∈ rowTeams m1, t ∉ rowTeams m2)

theorem rowRel_symm : Symmetric (fun (m1 m2 : MatchRow) =>
    m1.start_time = m2.start_time → ∀ t ∈ rowTeams m1, t ∉ rowTeams m2) := by
  intro x y hxy hstart t ht hmem
  exact hxy hstart.symm t hmem ht

/-- A grid accepted by the save validator has pairwise-disjoint team sets at
every shared time, and no team clashing with the already-accumulated sets. -/
theorem findDupTime_none : ∀ {rows : List MatchRow} {byTime : AMap Nat (List String)},
    findDupTime byTime rows = none →
    rowsNoDoubleBooking rows ∧
    ∀ m ∈ rows, ∀ t ∈ rowTeams m, t ∉ (AMap.get? byTime m.start_time).getD [] := by
  intro rows
  induction rows with
  | nil =>
    intro byTime h
    exact ⟨List.Pairwise.nil, fun m hm => absurd hm (List.not_mem_nil m)⟩
  | cons m rest ih =>
    intro byTime h
    rw [findDupTime] at h
    by_cases hg : ((AMap.get? byTime m.start_time).getD []).contains m.home_team_id ||
        ((AMap.get? byTime m.start_time).getD []).contains m.away_team_id
    · rw [if_pos hg] at h
      cases h
    · rw [if_neg hg] at h
      rw [Bool.or_eq_true, not_or] at hg
      have hha : m.home_team_id ∉ (AMap.get? byTime m.start_time).getD [] :=
        contains_false_iff.mp (Bool.not_eq_true _ ▸ hg.1)
      have hhb : m.away_team_id ∉ (AMap.get? byTime m.start_time).getD [] :=
        contains_false_iff.mp (Bool.not_eq_true _ ▸ hg.2)
      obtain ⟨hpw, hcl⟩ := ih h
      have hnew : AMap.get?
          (AMap.set byTime m.start_time
            (ladd (ladd ((AMap.get? byTime m.start_time).getD []) m.home_team_id)
              m.away_team_id)) m.start_time =
          some (ladd (ladd ((AMap.get? byTime m.start_time).getD []) m.home_team_id)
            m.away_team_id) := AMap.get?_set_self _ _ _
      constructor
      · rw [rowsNoDoubleBooking, List.pairwise_cons]
        refine ⟨?_, hpw⟩
        intro m' hm' hts t ht htm'
        have hcl' := hcl m' hm' t htm'
        rw [← hts, hnew] at hcl'
        dsimp only [Option.getD_some] at hcl'
        apply hcl'
        rcases List.mem_cons.mp ht with rfl | ht2
        · exact subset_ladd _ _ (mem_ladd.mpr (Or.inr rfl))
        · rw [List.mem_singleton] at ht2
          subst ht2
          exact mem_ladd.mpr (Or.inr rfl)
      · intro m2 hm2 t ht
        rcases List.mem_cons.mp hm2 with rfl | hm2
        · rcases List.mem_cons.mp ht with rfl | ht2
          · exact hha
          · rw [List.mem_singleton] at ht2
            subst ht2
            exact hhb
        · intro hin
          apply hcl m2 hm2 t ht
          by_cases hts : m2.start_time = m.start_time
          · rw [hts, hnew]
            dsimp only [Option.getD_some]
            exact subset_ladd _ _ (subset_ladd _ _ (by rwa [hts] at hin))
          · rw [AMap.get?_set_ne _ _ (fun h => hts h.symm)]
            exact hin

/-- With distinct row ids, the snapshot maps each row id to its position. -/
theorem snapshot_fold_get? :
    ∀ (db : List MatchRow) (acc : AMap String (Nat × Nat)) (r : MatchRow),
      (db.map MatchRow.id).Nodup → r ∈ db →
      AMap.get? (db.foldl (fun snap m => AMap.set snap m.id (m.start_time, m.field_idx)) acc)
        r.id = some (r.start_time, r.field_idx) := by
  intro db
  induction db with
  | nil =>
    intro acc r _ hr
    exact absurd hr (List.not_mem_nil r)
  | cons m rest ih =>
    intro acc r hnd hr
    rw [List.map_cons, List.nodup_cons] at hnd
    rw [List.foldl_cons]
    rcases List.mem_cons.mp hr with rfl | hr2
    · have haway : ∀ (acc2 : AMap String (Nat × Nat)), r.id ∉ rest.map MatchRow.id →
          AMap.get? (rest.foldl
            (fun snap m => AMap.set snap m.id (m.start_time, m.field_idx)) acc2) r.id =
            AMap.get? acc2 r.id := by
        clear ih hr hnd
        induction rest with
        | nil => exact fun acc2 _ => rfl
        | cons m2 rest2 ih2 =>
          intro acc2 hnot
          rw [List.map_cons] at hnot
          rw [List.foldl_cons, ih2 _ (fun hc => hnot (List.mem_cons_of_mem _ hc)),
            AMap.get?_set_ne _ _
              (fun hc => hnot (by rw [← hc]; exact List.mem_cons_self _ _))]
      rw [haway _ hnd.1, AMap.get?_set_self]
    · exact ih _ r hnd.2 hr2

theorem snapshot_get? {db : List MatchRow} (hnd : (db.map MatchRow.id).Nodup)
    {r : MatchRow} (hr : r ∈ db) :
    AMap.get? (snapshotPositions db) r.id = some (r.start_time, r.field_idx) :=
  snapshot_fold_get? db [] r hnd hr

/-- Every row persisted by a successful save mirrors an in-memory row:
same id, same teams, same position. -/
theorem save_persist_rows {rows db db' : List MatchRow}
    {updates : List (String × Nat × Nat)}
    (hndr : (rows.map MatchRow.id).Nodup)
    (hndd : (db.map MatchRow.id).Nodup)
    (hcorr : ∀ r ∈ db, ∃ m ∈ rows, m.id = r.id ∧ m.home_team_id = r.home_team_id ∧
      m.away_team_id = r.away_team_id)
    (hsave : saveManualEdits (snapshotPositions db) rows db = (db', .saved updates)) :
    ∀ r' ∈ db', ∃ m ∈ rows, r'.id = m.id ∧
      r'.home_team_id = m.home_team_id ∧ r'.away_team_id = m.away_team_id ∧
      r'.start_time = m.start_time ∧ r'.field_idx = m.field_idx := by
  obtain ⟨hdup, hupd, hdb⟩ := saveManualEdits_saved_inv hsave
  have husnd : ((computeUpdates (snapshotPositions db) rows).map Prod.fst).Nodup :=
    (computeUpdates_ids_sublist _ rows).nodup hndr
  intro r' hr'
  rw [hdb, hupd, foldl_dbApplyUpdate_eq_map] at hr'
  obtain ⟨r, hr, rfl⟩ := List.mem_map.mp hr'
  obtain ⟨m, hm, hmid, hmh, hma⟩ := hcorr r hr
  by_cases hcase : ∃ u ∈ computeUpdates (snapshotPositions db) rows, u.1 = r.id
  · obtain ⟨u, hu, huid⟩ := hcase
    rw [applyAll_of_unique husnd hu huid]
    obtain ⟨m0, hm0, o, ho, hone, hueq⟩ := mem_computeUpdates.mp hu
    have hm0id : m0.id = m.id := by
      have h1 : u.1 = m0.id := by rw [hueq]
      rw [← h1, huid, ← hmid]
    have hm0m : m0 = m := List.inj_on_of_nodup_map hndr hm0 hm hm0id
    subst hm0m
    refine ⟨m0, hm0, ?_, hmh.symm, hma.symm, ?_, ?_⟩
    · rw [hmid]
    · rw [hueq]
    · rw [hueq]
  · push_neg at hcase
    rw [applyAll_of_not_mem (fun u hu he => hcase u hu he.symm)]
    have hsnap : AMap.get? (snapshotPositions db) m.id =
        some (r.start_time, r.field_idx) := by
      rw [hmid]
      exact snapshot_get? hndd hr
    have hpos : (r.start_time, r.field_idx) = (m.start_time, m.field_idx) := by
      by_contra hposne
      have hmem : (m.id, m.start_time, m.field_idx) ∈
          computeUpdates (snapshotPositions db) rows :=
        mem_computeUpdates.mpr ⟨m, hm, (r.start_time, r.field_idx), hsnap, hposne, rfl⟩
      exact hcase _ hmem hmid
    refine ⟨m, hm, hmid.symm, hmh.symm, hma.symm, ?_, ?_⟩
    · exact congrArg Prod.fst hpos
    · exact congrArg Prod.snd hpos

/-- The persisted set after a successful save has no double booking. -/
theorem save_noDoubleBooking {rows db db' : List MatchRow}
    {updates : List (String × Nat × Nat)}
    (hndr : (rows.map MatchRow.id).Nodup)
    (hndd : (db.map MatchRow.id).Nodup)
    (hcorr : ∀ r ∈ db, ∃ m ∈ rows, m.id = r.id ∧ m.home_team_id = r.home_team_id ∧
      m.away_team_id = r.away_team_id)
    (hsave : saveManualEdits (snapshotPositions db) rows db = (db', .saved updates)) :
    rowsNoDoubleBooking db' := by
  obtain ⟨hdup, hupd, hdb⟩ := saveManualEdits_saved_inv hsave
  have hrowsOK : rowsNoDoubleBooking rows := (findDupTime_none hdup).1
  have htrans := save_persist_rows hndr hndd hcorr hsave
  have hdbids : db'.map MatchRow.id = db.map MatchRow.id := by
    rw [hdb, hupd, foldl_dbApplyUpdate_eq_map, List.map_map]
    exact List.map_congr_left (fun r _ => applyAll_id _ r)
  have hnd' : (db'.map MatchRow.id).Nodup := by
    rw [hdbids]
    exact hndd
  have hdbnodup : db'.Nodup := hnd'.of_map
  refine hdbnodup.pairwise_of_forall_ne ?_
  intro r1 hr1 r2 hr2 hne12 hts t ht
  have hidne : r1.id ≠ r2.id :=
    fun he => hne12 (List.inj_on_of_nodup_map hnd' hr1 hr2 he)
  obtain ⟨m1, hm1, e1id, e1h, e1a, e1s, e1f⟩ := htrans r1 hr1
  obtain ⟨m2, hm2, e2id, e2h, e2a, e2s, e2f⟩ := htrans r2 hr2
  have hm12 : m1 ≠ m2 := fun he => hidne (by rw [e1id, e2id, he])
  have hrel := (List.Pairwise.forall rowRel_symm hrowsOK) hm1 hm2 hm12
  have hmts : m1.start_time = m2.start_time := by rw [← e1s, ← e2s, hts]
  have hdis := hrel hmts
  have ht1 : t ∈ rowTeams m1 := by
    rcases List.mem_cons.mp ht with rfl | ht2
    · rw [e1h]
      exact List.mem_cons_self _ _
    · rw [List.mem_singleton] at ht2
      subst ht2
      rw [rowTeams, e1a]
      exact List.mem_cons_of_mem _ (List.mem_cons_self _ _)
  intro htm2
  apply hdis t ht1
  rcases List.mem_cons.mp htm2 with heq2 | ht2
  · rw [rowTeams, ← e2h, ← heq2]
    exact List.mem_cons_self _ _
  · rw [List.mem_singleton] at ht2
    rw [rowTeams, ← e2a, ← ht2]
    exact List.mem_cons_of_mem _ (List.mem_cons_self _ _)

/-- C1: in any persisted match set this program produces — the output of a
successful generation run, or the persisted rows after a successful
manual-edit save (snapshot taken from the persisted rows, in-memory grid
with the same ids and team columns) — no team id appears in two matches
sharing a start time. -/
theorem c1_no_double_booking :
    (∀ (inp : GenInput) (sched : List ScheduledMatch),
      generateRun inp = .ok sched → noDoubleBooking sched) ∧
    (∀ (rows db db' : List MatchRow) (updates : List (String × Nat × Nat)),
      (rows.map MatchRow.id).Nodup →
      (db.map MatchRow.id).Nodup →
      (∀ r ∈ db, ∃ m ∈ rows, m.id = r.id ∧ m.home_team_id = r.home_team_id ∧
        m.away_team_id = r.away_team_id) →
      saveManualEdits (snapshotPositions db) rows db = (db', .saved updates) →
      rowsNoDoubleBooking db') :=
  ⟨fun _ _ h => generation_noDoubleBooking h,
   fun _ _ _ _ hndr hndd hcorr hsave => save_noDoubleBooking hndr hndd hcorr hsave⟩

/-- Two-team configuration: one field, window 09:00 to 09:30, slot 15. -/
def teamsAB : List Team := [⟨"A", none⟩, ⟨"B", none⟩]

def inpAB : GenInput :=
  { teams := teamsAB, min_teams := none, max_teams := none,
    startMin := 540, endMin := 570, match_duration_min := 15,
    rotation_duration_min := 0, num_fields := 1, pauses := ⟨[], none, []⟩,
    showGroups := false, group_count := none }

theorem c1_no_double_booking_witness :
    noDoubleBooking [⟨"A", "B", 1, 540⟩] ∧ rowsNoDoubleBooking [rowM1Moved] :=
  ⟨c1_no_double_booking.1 inpAB [⟨"A", "B", 1, 540⟩] rfl,
   c1_no_double_booking.2 [rowM1Moved] [rowM1] [rowM1Moved] [("m1", 540, 2)]
     (by decide) (by decide)
     (by intro r hr
         rw [List.mem_singleton] at hr
         exact ⟨rowM1Moved, List.mem_singleton.mpr rfl, by rw [hr]; decide,
           by rw [hr]; decide, by rw [hr]; decide⟩)
     (by decide)⟩

/-! ## Pairing-generator membership facts -/

theorem rotR_perm {α : Type} (l : List α) : (rotR l).Perm l := by
  cases l with
  | nil => exact List.Perm.refl []
  | cons x xs =>
    unfold rotR
    have h := List.dropLast_append_getLast (List.cons_ne_nil x xs)
    have h2 : ((x :: xs).getLast (List.cons_ne_nil x xs) :: (x :: xs).dropLast).Perm
        ((x :: xs).dropLast ++ [(x :: xs).getLast (List.cons_ne_nil x xs)]) :=
      (List.perm_append_singleton _ _).symm
    rw [h] at h2
    exact h2

theorem rrStep_perm (l : List String) : (rrStep l).Perm l := by
  cases l with
  | nil => exact List.Perm.refl []
  | cons f rest => exact List.Perm.cons f (rotR_perm rest)

theorem roundPairs_mem {arr : List String} {r : Nat} {p : RRPair}
    (hnd : arr.Nodup) (hp : p ∈ roundPairs arr r) :
    p.a ∈ arr ∧ p.b ∈ arr ∧ p.a ≠ BYE ∧ p.b ≠ BYE ∧
      (arr.length % 2 = 0 → p.a ≠ p.b) := by
  unfold roundPairs at hp
  rw [List.mem_filterMap] at hp
  obtain ⟨i, hi, hf⟩ := hp
  rw [List.mem_range] at hi
  dsimp only at hf
  by_cases hcond : arr.getD i "" ≠ BYE ∧ arr.getD (arr.length - 1 - i) "" ≠ BYE
  · rw [if_pos hcond] at hf
    obtain rfl := (Option.some_inj.mp hf).symm
    have hlen : 0 < arr.length := by omega
    have hiLt : i < arr.length := by omega
    have hjLt : arr.length - 1 - i < arr.length := by omega
    have hga : arr.getD i "" = arr[i] := by
      rw [List.getD_eq_getElem?_getD, List.getElem?_eq_getElem hiLt]
      rfl
    have hgb : arr.getD (arr.length - 1 - i) "" = arr[arr.length - 1 - i] := by
      rw [List.getD_eq_getElem?_getD, List.getElem?_eq_getElem hjLt]
      rfl
    refine ⟨by rw [hga]; exact arr.getElem_mem hiLt,
      by rw [hgb]; exact arr.getElem_mem hjLt, hcond.1, hcond.2, ?_⟩
    intro heven heq
    rw [hga, hgb] at heq
    have hij : i = arr.length - 1 - i := (hnd.getElem_inj_iff).mp heq
    omega
  · rw [if_neg hcond] at hf
    cases hf

theorem rrRounds_mem {p : RRPair} :
    ∀ (fuel : Nat) (arr : List String) (r : Nat), arr.Nodup →
      p ∈ rrRounds arr r fuel →
      p.a ∈ arr ∧ p.b ∈ arr ∧ p.a ≠ BYE ∧ p.b ≠ BYE ∧
        (arr.length % 2 = 0 → p.a ≠ p.b) := by
  intro fuel
  induction fuel with
  | zero =>
    intro arr r _ hp
    exact absurd hp (List.not_mem_nil p)
  | succ f ih =>
    intro arr r hnd hp
    rw [rrRounds] at hp
    rcases List.mem_append.mp hp with hp | hp
    · exact roundPairs_mem hnd hp
    · have hperm := rrStep_perm arr
      obtain ⟨ha, hb, hna, hnb, hne⟩ := ih (rrStep arr) (r + 1) (hperm.nodup_iff.mpr hnd) hp
      exact ⟨hperm.mem_iff.mp ha, hperm.mem_iff.mp hb, hna, hnb,
        fun he => hne (by rw [hperm.length_eq]; exact he)⟩

theorem padIds_length_even (teamIds : List String) :
    (padIds teamIds).length % 2 = 0 := by
  unfold padIds
  by_cases h : teamIds.length % 2 = 1
  · rw [if_pos h, List.length_append]
    simp only [List.length_singleton]
    omega
  · rw [if_neg h]
    omega

theorem padIds_nodup {teamIds : List String} (hnd : teamIds.Nodup)
    (hbye : BYE ∉ teamIds) : (padIds teamIds).Nodup := by
  unfold padIds
  by_cases h : teamIds.length % 2 = 1
  · rw [if_pos h]
    rw [List.nodup_append]
    exact ⟨hnd, List.nodup_singleton _, by
      intro x hx hx2
      rw [List.mem_singleton] at hx2
      exact hbye (hx2 ▸ hx)⟩
  · rw [if_neg h]
    exact hnd

theorem mem_padIds_of_ne_bye {teamIds : List String} {x : String}
    (hx : x ∈ padIds teamIds) (hne : x ≠ BYE) : x ∈ teamIds := by
  unfold padIds at hx
  by_cases h : teamIds.length % 2 = 1
  · rw [if_pos h, List.mem_append] at hx
    rcases hx with hx | hx
    · exact hx
    · rw [List.mem_singleton] at hx
      exact absurd hx hne
  · rw [if_neg h] at hx
    exact hx

theorem roundRobinPairs_spec {teamIds : List String} (hnd : teamIds.Nodup)
    (hbye : BYE ∉ teamIds) {p : RRPair} (hp : p ∈ roundRobinPairs teamIds) :
    p.a ∈ teamIds ∧ p.b ∈ teamIds ∧ p.a ≠ p.b := by
  unfold roundRobinPairs at hp
  obtain ⟨ha, hb, hna, hnb, hne⟩ :=
    rrRounds_mem _ (padIds teamIds) 0 (padIds_nodup hnd hbye) hp
  exact ⟨mem_padIds_of_ne_bye ha hna, mem_padIds_of_ne_bye hb hnb,
    hne (padIds_length_even teamIds)⟩

/-! ## Sequence-builder membership facts -/

theorem sweepHeads_mem {qs : List (Nat × List RRPair)} {q : SeqPair}
    (h : q ∈ sweepHeads qs) : ∃ g ∈ qs, ∃ p ∈ g.2, q = ⟨p.a, p.b, g.1⟩ := by
  unfold sweepHeads at h
  rw [List.mem_filterMap] at h
  obtain ⟨g, hg, hf⟩ := h
  rcases hh : g.2.head? with _ | p
  · rw [hh] at hf
    cases hf
  · rw [hh] at hf
    exact ⟨g, hg, p, List.mem_of_mem_head? hh,
      (Option.some_inj.mp hf).symm⟩

theorem interleaveGo_mem :
    ∀ (fuel : Nat) (qs : List (Nat × List RRPair)) (q : SeqPair),
      q ∈ interleaveGo fuel qs → ∃ g ∈ qs, ∃ p ∈ g.2, q = ⟨p.a, p.b, g.1⟩ := by
  intro fuel
  induction fuel with
  | zero =>
    intro qs q h
    exact absurd h (List.not_mem_nil q)
  | succ f ih =>
    intro qs q h
    rw [interleaveGo] at h
    by_cases hz : queuesSize qs = 0
    · rw [if_pos hz] at h
      exact absurd h (List.not_mem_nil q)
    · rw [if_neg hz] at h
      rcases List.mem_append.mp h with h | h
      · exact sweepHeads_mem h
      · obtain ⟨g', hg', p, hp, hq⟩ := ih _ q h
        obtain ⟨g, hg, rfl⟩ := List.mem_map.mp hg'
        exact ⟨g, hg, p, List.mem_of_mem_tail hp, hq⟩

theorem interleaveByGroups_mem {groups : List (Nat × List RRPair)} {q : SeqPair}
    (h : q ∈ interleaveByGroups groups) :
    ∃ g ∈ groups, ∃ p ∈ g.2, q = ⟨p.a, p.b, g.1⟩ := by
  unfold interleaveByGroups interleaveRounds at h
  obtain ⟨g, hg, hrest⟩ := interleaveGo_mem _ _ q h
  exact ⟨g, (List.mergeSort_perm groups _).mem_iff.mp hg, hrest⟩

theorem groupTeams_fold (gc : Nat) :
    ∀ (teams : List Team) (acc : AMap Nat (List Team)) (g : Nat),
      (AMap.get? (teams.foldl (fun m tm =>
        AMap.set m (teamClampedGroup gc tm)
          ((AMap.get? m (teamClampedGroup gc tm)).getD [] ++ [tm])) acc) g).getD [] =
      (AMap.get? acc g).getD [] ++
        teams.filter (fun tm => teamClampedGroup gc tm == g) := by
  intro teams
  induction teams with
  | nil =>
    intro acc g
    rw [List.foldl_nil, List.filter_nil, List.append_nil]
  | cons tm rest ih =>
    intro acc g
    rw [List.foldl_cons, ih, List.filter_cons]
    by_cases hg : teamClampedGroup gc tm = g
    · rw [if_pos (by simp [hg]), ← hg, AMap.get?_set_self]
      dsimp only [Option.getD_some]
      rw [List.append_assoc, List.singleton_append]
    · rw [if_neg (by simp [hg]), AMap.get?_set_ne _ _ hg]

theorem groupTeams_get (gc : Nat) (teams : List Team) (g : Nat) :
    (AMap.get? (groupTeams gc teams) g).getD [] =
      teams.filter (fun tm => teamClampedGroup gc tm == g) := by
  unfold groupTeams
  rw [groupTeams_fold gc teams [] g]
  rfl

theorem buildSequence_teams {showGroups : Bool} {gc : Nat} {teams : List Team}
    (hnd : (teams.map Team.id).Nodup) (hbye : BYE ∉ teams.map Team.id) :
    ∀ p ∈ buildSequence showGroups gc teams,
      p.a ∈ teams.map Team.id ∧ p.b ∈ teams.map Team.id ∧ p.a ≠ p.b := by
  intro p hp
  unfold buildSequence at hp
  by_cases hsg : showGroups = true
  · rw [if_pos hsg] at hp
    obtain ⟨grp, hgrp, rp, hrp, rfl⟩ := interleaveByGroups_mem hp
    rw [List.mem_filterMap] at hgrp
    obtain ⟨i, _, hf⟩ := hgrp
    dsimp only at hf
    by_cases hlt : ((AMap.get? (groupTeams gc teams) (i + 1)).getD []).length < 2
    · rw [if_pos hlt] at hf
      cases hf
    · rw [if_neg hlt] at hf
      obtain rfl := (Option.some_inj.mp hf).symm
      dsimp only at hrp
      have hsub : (((AMap.get? (groupTeams gc teams) (i + 1)).getD []).map Team.id).Sublist
          (teams.map Team.id) := by
        rw [groupTeams_get]
        exact (List.filter_sublist teams).map Team.id
      obtain ⟨ha, hb, hne⟩ := roundRobinPairs_spec (hsub.nodup hnd)
        (fun hc => hbye (hsub.mem hc)) hrp
      exact ⟨hsub.mem ha, hsub.mem hb, hne⟩
  · rw [if_neg hsg] at hp
    rw [List.mem_map] at hp
    obtain ⟨rp, hrp, rfl⟩ := hp
    obtain ⟨ha, hb, hne⟩ := roundRobinPairs_spec hnd hbye hrp
    exact ⟨ha, hb, hne⟩

/-! ## Equity invariant of the placement loop -/

/-- Number of matches of a team in an emitted schedule. -/
def playedIn (ms : List ScheduledMatch) (t : String) : Nat :=
  ms.countP (fun m => m.home_team_id == t || m.away_team_id == t)

/-- All recorded counts are within one of each other. -/
def countsWithin1 (m : AMap String Nat) : Prop :=
  ∀ v ∈ AMap.values m, ∀ w ∈ AMap.values m, v ≤ w + 1

/-- The equity invariant carried through the slot loop: the played-count map
is keyed exactly by the team ids, its values stay within one of each other,
every pending pairing joins two distinct registered teams, and the map
agrees with the per-team count over the emitted schedule. -/
def EquityInv (tids : List String) (st : RunState) : Prop :=
  AMap.keysOf st.playedCount = tids ∧
  countsWithin1 st.playedCount ∧
  (∀ p ∈ st.sequence, p.a ∈ tids ∧ p.b ∈ tids ∧ p.a ≠ p.b) ∧
  (∀ k n, AMap.get? st.playedCount k = some n → n = playedIn st.scheduled k)

theorem playedIn_append (ms : List ScheduledMatch) (nm : ScheduledMatch)
    (t : String) :
    playedIn (ms ++ [nm]) t = playedIn ms t +
      (if nm.home_team_id = t ∨ nm.away_team_id = t then 1 else 0) := by
  unfold playedIn
  rw [List.countP_append]
  congr 1
  by_cases h : nm.home_team_id = t ∨ nm.away_team_id = t
  · rw [if_pos h]
    have hb : (nm.home_team_id == t || nm.away_team_id == t) = true := by
      rcases h with h | h
      · rw [h]
        simp
      · rw [h]
        simp
    simp [List.countP_cons, List.countP_nil, hb]
  · rw [if_neg h]
    push_neg at h
    have hb : (nm.home_team_id == t || nm.away_team_id == t) = false := by
      simp [h.1, h.2]
    simp [List.countP_cons, List.countP_nil, hb]

/-- Updating the two played counts checked by the engine keeps the keys and
the within-one property, because the equity filter bounds both incremented
counts and the old maximum by the old minimum plus one. -/
theorem pcUpdate_equity {pc : AMap String Nat} {a b : String} {ca cb : Nat}
    (habne : a ≠ b) (hca : AMap.get? pc a = some ca)
    (hcb : AMap.get? pc b = some cb)
    (hw1 : ∀ v ∈ AMap.values pc, ∀ w ∈ AMap.values pc, v ≤ w + 1)
    (heq : (minMaxAfter pc a b).2 ≤ (minMaxAfter pc a b).1 + 1) :
    AMap.keysOf (AMap.set (AMap.set pc a (ca + 1)) b (cb + 1)) = AMap.keysOf pc ∧
    (∀ v ∈ AMap.values (AMap.set (AMap.set pc a (ca + 1)) b (cb + 1)),
      ∀ w ∈ AMap.values (AMap.set (AMap.set pc a (ca + 1)) b (cb + 1)), v ≤ w + 1) := by
  have hamem : ca ∈ AMap.values pc := AMap.mem_values_of_get? hca
  have hbmem : cb ∈ AMap.values pc := AMap.mem_values_of_get? hcb
  have hne : AMap.values pc ≠ [] := by
    intro hc
    rw [hc] at hamem
    exact absurd hamem (List.not_mem_nil ca)
  obtain ⟨mn, hmnE⟩ : ∃ mn, (AMap.values pc).min? = some mn := by
    rcases hv : (AMap.values pc).min? with _ | mn
    · rw [List.min?_eq_none_iff] at hv
      exact absurd hv hne
    · exact ⟨mn, rfl⟩
  obtain ⟨mx, hmxE⟩ : ∃ mx, (AMap.values pc).max? = some mx := by
    rcases hv : (AMap.values pc).max? with _ | mx
    · rw [List.max?_eq_none_iff] at hv
      exact absurd hv hne
    · exact ⟨mx, rfl⟩
  obtain ⟨hmnmem, hmnle⟩ := List.min?_eq_some_iff'.mp hmnE
  obtain ⟨hmxmem, hmxge⟩ := List.max?_eq_some_iff'.mp hmxE
  have hunfold : minMaxAfter pc a b =
      (mn, max (max mx (ca + 1)) (cb + 1)) := by
    unfold minMaxAfter
    dsimp only
    rw [hca, hcb, hmnE, hmxE]
    rfl
  rw [hunfold] at heq
  dsimp only at heq
  rw [max_le_iff, max_le_iff] at heq
  obtain ⟨⟨hmx1, hca1⟩, hcb1⟩ := heq
  have hkeys1 : AMap.keysOf (AMap.set pc a (ca + 1)) = AMap.keysOf pc :=
    AMap.keysOf_set_of_mem _
      (AMap.mem_keysOf_of_get?_isSome (by rw [hca]; rfl))
  have hkeys2 : AMap.keysOf (AMap.set (AMap.set pc a (ca + 1)) b (cb + 1)) =
      AMap.keysOf pc := by
    rw [AMap.keysOf_set_of_mem _ (by
      rw [hkeys1]
      exact AMap.mem_keysOf_of_get?_isSome (by rw [hcb]; rfl)), hkeys1]
  have hbounds : ∀ v ∈ AMap.values (AMap.set (AMap.set pc a (ca + 1)) b (cb + 1)),
      mn ≤ v ∧ v ≤ mn + 1 := by
    intro v hv
    rcases AMap.mem_values_set hv with rfl | hv1
    · exact ⟨Nat.le_succ_of_le (hmnle cb hbmem), hcb1⟩
    · rcases AMap.mem_values_set hv1 with rfl | hv2
      · exact ⟨Nat.le_succ_of_le (hmnle ca hamem), hca1⟩
      · exact ⟨hmnle v hv2, le_trans (hmxge v hv2) hmx1⟩
  refine ⟨hkeys2, ?_⟩
  intro v hv w hw
  obtain ⟨_, hv2⟩ := hbounds v hv
  obtain ⟨hw1b, _⟩ := hbounds w hw
  omega

theorem placeChosen_equity {tids : List String} (gc : Nat) (st : RunState)
    (slot : Slot) (busySet : List String) (ci : Nat) (cand : SeqPair)
    (hinv : EquityInv tids st)
    (hptr : st.ptr < st.sequence.length)
    (hci : st.sequence.get? ci = some cand)
    (heq : (minMaxGlobalAfter st cand.a cand.b).2 ≤
      (minMaxGlobalAfter st cand.a cand.b).1 + 1) :
    EquityInv tids (placeChosen gc st slot busySet ci) := by
  obtain ⟨hkeys, hw1, hseq, hlink⟩ := hinv
  obtain ⟨hain, hbin, habne⟩ := hseq cand (List.get?_mem hci)
  have heq' : (minMaxAfter st.playedCount cand.a cand.b).2 ≤
      (minMaxAfter st.playedCount cand.a cand.b).1 + 1 := heq
  unfold placeChosen
  dsimp only
  rw [swapSeq_get?_fst hci hptr]
  dsimp only
  have hakey : cand.a ∈ AMap.keysOf st.playedCount := by rw [hkeys]; exact hain
  have hbkey : cand.b ∈ AMap.keysOf st.playedCount := by rw [hkeys]; exact hbin
  obtain ⟨ca, hca⟩ :=
    Option.isSome_iff_exists.mp (AMap.get?_isSome_of_mem_keysOf hakey)
  obtain ⟨cb, hcb⟩ :=
    Option.isSome_iff_exists.mp (AMap.get?_isSome_of_mem_keysOf hbkey)
  have hp1b : AMap.get? (AMap.set st.playedCount cand.a
      ((AMap.get? st.playedCount cand.a).getD 0 + 1)) cand.b =
      AMap.get? st.playedCount cand.b :=
    AMap.get?_set_ne _ _ habne
  rw [hp1b, hca, hcb]
  simp only [Option.getD_some]
  have hmm := pcUpdate_equity habne hca hcb hw1 heq'
  refine ⟨?_, ?_, ?_, ?_⟩
  · dsimp only
    rw [hmm.1, hkeys]
  · dsimp only
    exact hmm.2
  · dsimp only
    intro p hp
    exact hseq p (mem_swapSeq hp)
  · intro k n hk
    dsimp only at hk ⊢
    by_cases hkb : k = cand.b
    · subst hkb
      rw [AMap.get?_set_self] at hk
      obtain rfl := (Option.some_inj.mp hk).symm
      rw [playedIn_append]
      dsimp only
      rw [if_pos (Or.inr rfl), hlink cand.b cb hcb]
    · rw [AMap.get?_set_ne _ _ (fun h => hkb h.symm)] at hk
      by_cases hka : k = cand.a
      · subst hka
        rw [AMap.get?_set_self] at hk
        obtain rfl := (Option.some_inj.mp hk).symm
        rw [playedIn_append]
        dsimp only
        rw [if_pos (Or.inl rfl), hlink cand.a ca hca]
      · rw [AMap.get?_set_ne _ _ (fun h => hka h.symm)] at hk
        rw [playedIn_append]
        dsimp only
        rw [if_neg (by
          push_neg
          exact ⟨fun h => hka h.symm, fun h => hkb h.symm⟩)]
        rw [hlink k n hk]
        omega

theorem stepSlot_equity {tids : List String} (gc : Nat) (st : RunState)
    (slot : Slot) (hinv : EquityInv tids st) :
    EquityInv tids (stepSlot gc st slot) := by
  unfold stepSlot
  by_cases hguard : st.ptr ≥ st.sequence.length
  · rw [if_pos hguard]
    exact hinv
  · rw [if_neg hguard]
    dsimp only
    set st1 : RunState := if AMap.hasKey st.busyAtTime slot.start then st
      else { st with busyAtTime := AMap.set st.busyAtTime slot.start [] } with hst1
    have hpc : st1.playedCount = st.playedCount := by rw [hst1]; split_ifs <;> rfl
    have hsq : st1.sequence = st.sequence := by rw [hst1]; split_ifs <;> rfl
    have hsc : st1.scheduled = st.scheduled := by rw [hst1]; split_ifs <;> rfl
    have hpt : st1.ptr = st.ptr := by rw [hst1]; split_ifs <;> rfl
    have hinv1 : EquityInv tids st1 := by
      unfold EquityInv countsWithin1
      rw [hpc, hsq, hsc]
      exact hinv
    rcases hcc : chooseCandidate gc st1
        ((AMap.get? st1.busyAtTime slot.start).getD []) slot with _ | ci
    · exact hinv1
    · obtain ⟨hle, cand, hcand, hok⟩ := chooseCandidate_some gc st1 _ slot hcc
      have heqc : (minMaxGlobalAfter st1 cand.a cand.b).2 ≤
          (minMaxGlobalAfter st1 cand.a cand.b).1 + 1 := by
        rcases hok with hok | hok
        · exact (candidateOk_spec hok).2.2.1
        · exact (candidateOk_spec hok).2.2.1
      exact placeChosen_equity gc st1 slot _ ci cand hinv1
        (by rw [hpt, hsq]; omega) hcand heqc

theorem runLoop_equity {tids : List String} (gc : Nat) (slots : List Slot) :
    ∀ st : RunState, EquityInv tids st → EquityInv tids (runLoop gc slots st) := by
  induction slots with
  | nil =>
    intro st hinv
    exact hinv
  | cons slot rest ih =>
    intro st hinv
    exact ih _ (stepSlot_equity gc st slot hinv)

/-! ## The initial state satisfies the equity invariant -/

theorem initCounts_fst_aux (gc : Nat) :
    ∀ (teams : List Team)
      (acc : AMap String Nat × AMap String Int × AMap Nat (AMap String Nat)),
      (teams.foldl (fun acc tm =>
        let g := teamClampedGroup gc tm
        let pg := if AMap.hasKey acc.2.2 g then acc.2.2 else AMap.set acc.2.2 g []
        (AMap.set acc.1 tm.id 0,
         AMap.set acc.2.1 tm.id (-9999),
         AMap.set pg g (AMap.set ((AMap.get? pg g).getD []) tm.id 0))) acc).1 =
      teams.foldl (fun pc tm => AMap.set pc tm.id 0) acc.1 := by
  intro teams
  induction teams with
  | nil =>
    intro acc
    rfl
  | cons tm rest ih =>
    intro acc
    rw [List.foldl_cons, List.foldl_cons, ih]

theorem initCounts_fst (gc : Nat) (teams : List Team) :
    (initCounts gc teams).1 = teams.foldl (fun pc tm => AMap.set pc tm.id 0) [] :=
  initCounts_fst_aux gc teams ([], [], [])

theorem pcFold_get? :
    ∀ (teams : List Team) (acc : AMap String Nat) (k : String),
      AMap.get? (teams.foldl (fun pc tm => AMap.set pc tm.id 0) acc) k =
        if k ∈ teams.map Team.id then some 0 else AMap.get? acc k := by
  intro teams
  induction teams with
  | nil =>
    intro acc k
    rw [List.foldl_nil, List.map_nil, if_neg (List.not_mem_nil k)]
  | cons tm rest ih =>
    intro acc k
    rw [List.foldl_cons, ih, List.map_cons]
    by_cases hk : k ∈ rest.map Team.id
    · rw [if_pos hk, if_pos (List.mem_cons_of_mem _ hk)]
    · rw [if_neg hk]
      by_cases hk2 : tm.id = k
      · subst hk2
        rw [AMap.get?_set_self, if_pos (List.mem_cons_self _ _)]
      · rw [AMap.get?_set_ne _ _ hk2, if_neg (by
          intro hc
          rcases List.mem_cons.mp hc with h | h
          · exact hk2 h.symm
          · exact hk h)]

theorem pcFold_keys :
    ∀ (teams : List Team) (acc : AMap String Nat),
      (teams.map Team.id).Nodup → (∀ t ∈ teams, t.id ∉ AMap.keysOf acc) →
      AMap.keysOf (teams.foldl (fun pc tm => AMap.set pc tm.id 0) acc) =
        AMap.keysOf acc ++ teams.map Team.id := by
  intro teams
  induction teams with
  | nil =>
    intro acc _ _
    rw [List.foldl_nil, List.map_nil, List.append_nil]
  | cons tm rest ih =>
    intro acc hnd hdisj
    rw [List.map_cons, List.nodup_cons] at hnd
    rw [List.foldl_cons, List.map_cons]
    have hstep : AMap.keysOf (AMap.set acc tm.id 0) = AMap.keysOf acc ++ [tm.id] :=
      AMap.keysOf_set_of_not_mem _ (hdisj tm (List.mem_cons_self _ _))
    rw [ih _ hnd.2 (by
      intro t ht hc
      rw [hstep, List.mem_append] at hc
      rcases hc with hc | hc
      · exact hdisj t (List.mem_cons_of_mem _ ht) hc
      · rw [List.mem_singleton] at hc
        exact hnd.1 (hc ▸ List.mem_map_of_mem Team.id ht)), hstep,
      List.append_assoc, List.singleton_append]

theorem pcFold_values_zero :
    ∀ (teams : List Team) (acc : AMap String Nat),
      (∀ v ∈ AMap.values acc, v = 0) →
      ∀ v ∈ AMap.values (teams.foldl (fun pc tm => AMap.set pc tm.id 0) acc), v = 0 := by
  intro teams
  induction teams with
  | nil =>
    intro acc h v hv
    exact h v hv
  | cons tm rest ih =>
    intro acc h v hv
    rw [List.foldl_cons] at hv
    refine ih _ ?_ v hv
    intro w hw
    rcases AMap.mem_values_set hw with rfl | hw2
    · rfl
    · exact h w hw2

theorem initState_equity (gc fieldCount : Nat) (teams : List Team)
    (sequence : List SeqPair) (hnd : (teams.map Team.id).Nodup)
    (hseq : ∀ p ∈ sequence,
      p.a ∈ teams.map Team.id ∧ p.b ∈ teams.map Team.id ∧ p.a ≠ p.b) :
    EquityInv (teams.map Team.id) (initState gc fieldCount teams sequence) := by
  have hpc : (initState gc fieldCount teams sequence).playedCount =
      teams.foldl (fun pc tm => AMap.set pc tm.id 0) [] := initCounts_fst gc teams
  refine ⟨?_, ?_, hseq, ?_⟩
  · rw [hpc, pcFold_keys teams [] hnd (fun t _ hc => absurd hc (List.not_mem_nil t.id))]
    rfl
  · intro v hv w hw
    rw [hpc] at hv
    rw [pcFold_values_zero teams [] (fun u hu => absurd hu (List.not_mem_nil u)) v hv]
    omega
  · intro k n hk
    rw [hpc, pcFold_get?] at hk
    by_cases hmem : k ∈ teams.map Team.id
    · rw [if_pos hmem] at hk
      obtain rfl := (Option.some_inj.mp hk).symm
      rfl
    · rw [if_neg hmem] at hk
      simp [AMap.get?] at hk

/-! ## Claim C4 -/

/-- C4: after a successful generation run, every two teams' played-match
counts differ by at most one — globally, and in particular within each pool
in pooled mode.  (Both scan passes enforce the equity filters; only the
strict-rest filter is relaxed in Pass B, so the bound holds for every run.) -/
theorem c4_equity (inp : GenInput) (sched : List ScheduledMatch)
    (hnd : (inp.teams.map Team.id).Nodup)
    (hbye : BYE ∉ inp.teams.map Team.id)
    (hok : generateRun inp = .ok sched) :
    (∀ x ∈ inp.teams, ∀ y ∈ inp.teams,
      playedIn sched x.id ≤ playedIn sched y.id + 1) ∧
    (inp.showGroups = true → ∀ x ∈ inp.teams, ∀ y ∈ inp.teams,
      teamClampedGroup (groupCountOf inp) x = teamClampedGroup (groupCountOf inp) y →
      playedIn sched x.id ≤ playedIn sched y.id + 1) := by
  have hsched := generateRun_ok_inv hok
  subst hsched
  set stF := runLoop (groupCountOf inp)
      (allSlots inp.pauses inp.startMin inp.endMin (slotMinutesOf inp) inp.num_fields)
      (initState (groupCountOf inp) inp.num_fields inp.teams
        (buildSequence inp.showGroups (groupCountOf inp) inp.teams)) with hstF
  have hinv : EquityInv (inp.teams.map Team.id) stF := by
    rw [hstF]
    exact runLoop_equity (groupCountOf inp)
      (allSlots inp.pauses inp.startMin inp.endMin (slotMinutesOf inp) inp.num_fields)
      (initState (groupCountOf inp) inp.num_fields inp.teams
        (buildSequence inp.showGroups (groupCountOf inp) inp.teams))
      (initState_equity (groupCountOf inp) inp.num_fields inp.teams
        (buildSequence inp.showGroups (groupCountOf inp) inp.teams) hnd
        (buildSequence_teams hnd hbye))
  obtain ⟨hkeys, hw1, hseqI, hlink⟩ := hinv
  have hglob : ∀ x ∈ inp.teams, ∀ y ∈ inp.teams,
      playedIn stF.scheduled x.id ≤ playedIn stF.scheduled y.id + 1 := by
    intro x hx y hy
    have hxk : x.id ∈ AMap.keysOf stF.playedCount := by
      rw [hkeys]
      exact List.mem_map_of_mem Team.id hx
    have hyk : y.id ∈ AMap.keysOf stF.playedCount := by
      rw [hkeys]
      exact List.mem_map_of_mem Team.id hy
    obtain ⟨nx, hnx⟩ :=
      Option.isSome_iff_exists.mp (AMap.get?_isSome_of_mem_keysOf hxk)
    obtain ⟨ny, hny⟩ :=
      Option.isSome_iff_exists.mp (AMap.get?_isSome_of_mem_keysOf hyk)
    have hb := hw1 nx (AMap.mem_values_of_get? hnx) ny (AMap.mem_values_of_get? hny)
    rw [← hlink x.id nx hnx, ← hlink y.id ny hny]
    exact hb
  exact ⟨hglob, fun _ x hx y hy _ => hglob x hx y hy⟩

theorem c4_equity_witness :
    (∀ x ∈ inpAB.teams, ∀ y ∈ inpAB.teams,
      playedIn [⟨"A", "B", 1, 540⟩] x.id ≤ playedIn [⟨"A", "B", 1, 540⟩] y.id + 1) ∧
    (inpAB.showGroups = true → ∀ x ∈ inpAB.teams, ∀ y ∈ inpAB.teams,
      teamClampedGroup (groupCountOf inpAB) x = teamClampedGroup (groupCountOf inpAB) y →
      playedIn [⟨"A", "B", 1, 540⟩] x.id ≤ playedIn [⟨"A", "B", 1, 540⟩] y.id + 1) :=
  c4_equity inpAB [⟨"A", "B", 1, 540⟩] (by decide) (by decide) rfl

/-! ## Pass-A filter: claim-side and code-faithful formulations -/

/-- The equity test as the C3 claim words it: the spread of the played
counts AFTER placing the pairing (both teams' entries incremented) must not
exceed one. -/
def equityOkClaim (m : AMap String Nat) (a b : String) : Bool :=
  let m2 := AMap.set (AMap.set m a ((AMap.get? m a).getD 0 + 1)) b
    ((AMap.get? m b).getD 0 + 1)
  let vals := AMap.values m2
  decide (vals.max?.getD 0 - vals.min?.getD 0 ≤ 1)

/-- The Pass-A keep condition as the C3 claim words it (specification-side
definition, for comparison with `candidateOk`): neither team busy, strict
rest for both, post-placement global spread at most one, and in pooled mode
post-placement pool spread at most one. -/
def passAKeepsClaim (gc : Nat) (showGroups : Bool) (st : RunState)
    (busySet : List String) (slot : Slot) (cand : SeqPair) : Bool :=
  !busySet.contains cand.a && !busySet.contains cand.b &&
  restOkStrict st cand.a slot.timeIndex && restOkStrict st cand.b slot.timeIndex &&
  equityOkClaim st.playedCount cand.a cand.b &&
  (!showGroups ||
    (match AMap.get? st.playedCountByGroup (clampG gc cand.groupIdx) with
     | none => true
     | some gm => equityOkClaim gm cand.a cand.b))

/-- The equity test the source actually performs: the maximum over the
CURRENT counts together with both incremented counts must not exceed the
CURRENT minimum plus one. -/
def equityOkAmended (m : AMap String Nat) (a b : String) : Bool :=
  let vals := AMap.values m
  decide ((vals ++ [(AMap.get? m a).getD 0 + 1, (AMap.get? m b).getD 0 + 1]).max?.getD 0
    ≤ vals.min?.getD 0 + 1)

/-- The same test against the candidate's pool map (trivially true when the
pool has no recorded counts, matching the source's `?? 0` fallback). -/
def equityOkAmendedPool (st : RunState) (g : Nat) (a b : String) : Bool :=
  match AMap.get? st.playedCountByGroup g with
  | none => true
  | some gm => equityOkAmended gm a b

/-- The Pass-A keep condition restated from the source: neither team busy,
strict rest for both, and the pre-minimum equity tests globally and for the
candidate's pool (the pool test runs in every mode; in flat mode the single
pool makes it coincide with the global one). -/
def passAKeepsAmended (gc : Nat) (st : RunState) (busySet : List String)
    (slot : Slot) (cand : SeqPair) : Bool :=
  !busySet.contains cand.a && !busySet.contains cand.b &&
  restOkStrict st cand.a slot.timeIndex && restOkStrict st cand.b slot.timeIndex &&
  equityOkAmended st.playedCount cand.a cand.b &&
  equityOkAmendedPool st (clampG gc cand.groupIdx) cand.a cand.b

theorem max?_append_two (vals : List Nat) (x y : Nat) :
    ((vals ++ [x, y]).max?).getD 0 = max (max (vals.max?.getD 0) x) y := by
  cases vals with
  | nil =>
    show (([x, y]).max?).getD 0 = max (max 0 x) y
    rw [Nat.zero_max]
    rfl
  | cons v vs =>
    show ((v :: (vs ++ [x, y])).max?).getD 0 = max (max (((v :: vs).max?).getD 0) x) y
    have h1 : ((v :: (vs ++ [x, y])).max?).getD 0 = (vs ++ [x, y]).foldl max v := rfl
    have h2 : (((v :: vs).max?).getD 0) = vs.foldl max v := rfl
    rw [h1, h2, List.foldl_append]
    rfl

theorem equityOkAmended_eq (m : AMap String Nat) (a b : String) :
    equityOkAmended m a b =
      decide ((minMaxAfter m a b).2 ≤ (minMaxAfter m a b).1 + 1) := by
  unfold equityOkAmended minMaxAfter
  dsimp only
  rw [max?_append_two]

theorem equityOkAmendedPool_eq (st : RunState) (g : Nat) (a b : String) :
    equityOkAmendedPool st g a b =
      decide ((minMaxGroupAfter st g a b).2 ≤ (minMaxGroupAfter st g a b).1 + 1) := by
  unfold equityOkAmendedPool minMaxGroupAfter
  cases hg : AMap.get? st.playedCountByGroup g with
  | none => rfl
  | some gm => exact equityOkAmended_eq gm a b

/-! ## Claim C3 -/

/-- The flat three-team configuration exhibiting the Pass-A divergence. -/
def teamsABC : List Team := [⟨"A", none⟩, ⟨"B", none⟩, ⟨"C", none⟩]

def inpABC : GenInput :=
  { teams := teamsABC, min_teams := none, max_teams := none,
    startMin := 540, endMin := 600, match_duration_min := 15,
    rotation_duration_min := 0, num_fields := 1, pauses := ⟨[], none, []⟩,
    showGroups := false, group_count := none }

def slotsABC : List Slot :=
  allSlots inpABC.pauses inpABC.startMin inpABC.endMin (slotMinutesOf inpABC)
    inpABC.num_fields

/-- The engine state right before the third time slot of the run on
`inpABC` (one match placed at 09:00, nothing placeable at 09:15). -/
def stC3 : RunState :=
  runLoop (groupCountOf inpABC) (slotsABC.take 2)
    (initState (groupCountOf inpABC) inpABC.num_fields teamsABC
      (buildSequence inpABC.showGroups (groupCountOf inpABC) teamsABC))

def slotC3 : Slot := ⟨570, 1, 2⟩

def candC3 : SeqPair := ⟨"A", "C", 1⟩

/-- C3 counterexample: at the third slot of the flat three-team run the
cursor candidate (A, C) — counts A = 0, B = 1, C = 1, both teams rested,
nobody busy — satisfies every condition of the claim (post-placement counts
A = 1, B = 1, C = 2, spread 1), yet Pass A excludes it: the source compares
the post-placement maximum (2) against the PRE-placement minimum (0), not
against the post-placement minimum. -/
theorem c3_counterexample :
    slotsABC.get? 2 = some slotC3 ∧
    stC3.sequence.get? stC3.ptr = some candC3 ∧
    (AMap.get? stC3.busyAtTime slotC3.start).getD [] = [] ∧
    passAKeepsClaim (groupCountOf inpABC) inpABC.showGroups stC3 [] slotC3 candC3 = true ∧
    candidateOk (groupCountOf inpABC) stC3 [] slotC3 true candC3 = false := by
  decide

/-- C3 (amended): Pass A keeps a candidate from the window exactly when
neither team is busy at the cell's time, both teams have strict rest
(≥ 2 time indices since their last match), and the equity tests pass in
their source form: the maximum over the current played counts together with
both teams' incremented counts must not exceed the CURRENT (pre-placement)
minimum plus one — applied to the global counts and to the candidate's pool
counts in every mode.  This is strictly stronger than the claimed
"post-placement spread at most one": when the candidate's teams sit at the
current minimum and some third team is one above it, the post-placement
spread is 1 but Pass A (and Pass B) still exclude the pairing. -/
theorem c3_amended (gc : Nat) (st : RunState) (bs : List String) (slot : Slot)
    (cand : SeqPair) :
    candidateOk gc st bs slot true cand = passAKeepsAmended gc st bs slot cand := by
  unfold candidateOk passAKeepsAmended
  dsimp only
  unfold minMaxGlobalAfter
  rw [equityOkAmended_eq, equityOkAmendedPool_eq]
  split_ifs with h1 h2 h3 h4
  · rw [Bool.or_eq_true] at h1
    rcases h1 with h | h
    · simp at h
      simp [h]
    · simp at h
      simp [h]
  · cases hRa : restOkStrict st cand.a slot.timeIndex with
    | false => simp [hRa]
    | true =>
      cases hRb : restOkStrict st cand.b slot.timeIndex with
      | false => simp [hRb]
      | true =>
        rw [hRa, hRb] at h2
        simp at h2
  · rw [decide_eq_false (show ¬((minMaxAfter st.playedCount cand.a cand.b).2 ≤
      (minMaxAfter st.playedCount cand.a cand.b).1 + 1) by omega)]
    simp
  · rw [decide_eq_false (show
      ¬((minMaxGroupAfter st (clampG gc cand.groupIdx) cand.a cand.b).2 ≤
        (minMaxGroupAfter st (clampG gc cand.groupIdx) cand.a cand.b).1 + 1) by omega)]
    simp
  · have hca : bs.contains cand.a = false := by
      cases hA : bs.contains cand.a with
      | false => rfl
      | true => exact absurd (show (bs.contains cand.a || bs.contains cand.b) = true
          by rw [hA]; simp) h1
    have hcb : bs.contains cand.b = false := by
      cases hB : bs.contains cand.b with
      | false => rfl
      | true => exact absurd (show (bs.contains cand.a || bs.contains cand.b) = true
          by rw [hB]; simp) h1
    have h2' : (restOkStrict st cand.a slot.timeIndex &&
        restOkStrict st cand.b slot.timeIndex) = true := by
      cases hR : (restOkStrict st cand.a slot.timeIndex &&
          restOkStrict st cand.b slot.timeIndex) with
      | true => rfl
      | false => exact absurd (show (true && !(restOkStrict st cand.a slot.timeIndex &&
          restOkStrict st cand.b slot.timeIndex)) = true by rw [Bool.true_and, hR]; rfl) h2
    rw [Bool.and_eq_true] at h2'
    rw [hca, hcb, h2'.1, h2'.2,
      decide_eq_true (show (minMaxAfter st.playedCount cand.a cand.b).2 ≤
        (minMaxAfter st.playedCount cand.a cand.b).1 + 1 by omega),
      decide_eq_true (show
        (minMaxGroupAfter st (clampG gc cand.groupIdx) cand.a cand.b).2 ≤
          (minMaxGroupAfter st (clampG gc cand.groupIdx) cand.a cand.b).1 + 1 by omega)]
    rfl

/-! ## The interleave loop as round-indexed sweeps -/

/-- Longest pending queue. -/
def maxQLen (qs : List (Nat × List RRPair)) : Nat :=
  (qs.map (fun g => g.2.length)).foldr max 0

/-- One round of the interleave as the specification describes it: visit
every pool in list order and take its r-th pairing when it has one. -/
def roundTake (qs : List (Nat × List RRPair)) (r : Nat) : List SeqPair :=
  qs.filterMap (fun g => g.2[r]?.map (fun p => ⟨p.a, p.b, g.1⟩))

/-- The interleaving as the specification describes it: round 0 over all
pools, then round 1, ... until the longest pool is exhausted. -/
def interleaveSpecRounds (qs : List (Nat × List RRPair)) : List SeqPair :=
  (List.range (maxQLen qs)).flatMap (roundTake qs)

theorem maxQLen_cons (g : Nat × List RRPair) (rest : List (Nat × List RRPair)) :
    maxQLen (g :: rest) = max g.2.length (maxQLen rest) := rfl

theorem maxQLen_tails (qs : List (Nat × List RRPair)) :
    maxQLen (qs.map (fun g => (g.1, g.2.tail))) = maxQLen qs - 1 := by
  induction qs with
  | nil => rfl
  | cons g rest ih =>
    rw [List.map_cons, maxQLen_cons, maxQLen_cons, ih]
    have hlen : g.2.tail.length = g.2.length - 1 := List.length_tail g.2
    dsimp only
    omega

theorem maxQLen_zero_of_size_zero {qs : List (Nat × List RRPair)}
    (h : queuesSize qs = 0) : maxQLen qs = 0 := by
  induction qs with
  | nil => rfl
  | cons g rest ih =>
    have hc : g.2.length + queuesSize rest = 0 := h
    rw [maxQLen_cons, ih (by omega)]
    omega

theorem size_zero_of_maxQLen_zero {qs : List (Nat × List RRPair)}
    (h : maxQLen qs = 0) : queuesSize qs = 0 := by
  induction qs with
  | nil => rfl
  | cons g rest ih =>
    rw [maxQLen_cons] at h
    show g.2.length + queuesSize rest = 0
    have h2 := ih (by omega)
    omega

theorem sweepHeads_eq_roundTake (qs : List (Nat × List RRPair)) :
    sweepHeads qs = roundTake qs 0 := by
  unfold sweepHeads roundTake
  congr 1
  funext g
  rw [List.head?_eq_getElem?]

theorem roundTake_tails (qs : List (Nat × List RRPair)) (r : Nat) :
    roundTake (qs.map (fun g => (g.1, g.2.tail))) r = roundTake qs (r + 1) := by
  unfold roundTake
  rw [List.filterMap_map]
  congr 1
  funext g
  dsimp only [Function.comp]
  rw [List.getElem?_tail]

theorem interleaveGo_eq_rounds :
    ∀ (fuel : Nat) (qs : List (Nat × List RRPair)), queuesSize qs ≤ fuel →
      interleaveGo fuel qs = (List.range (maxQLen qs)).flatMap (roundTake qs) := by
  intro fuel
  induction fuel with
  | zero =>
    intro qs h
    rw [interleaveGo, maxQLen_zero_of_size_zero (Nat.le_zero.mp h)]
    rfl
  | succ f ih =>
    intro qs h
    rw [interleaveGo]
    by_cases hz : queuesSize qs = 0
    · rw [if_pos hz, maxQLen_zero_of_size_zero hz]
      rfl
    · rw [if_neg hz]
      have htails : queuesSize (qs.map (fun g => (g.1, g.2.tail))) ≤ f := by
        have := queuesSize_tails_lt hz
        omega
      rw [ih _ htails, maxQLen_tails]
      obtain ⟨m, hm⟩ : ∃ m, maxQLen qs = m + 1 := by
        rcases hq : maxQLen qs with _ | m
        · exact absurd (size_zero_of_maxQLen_zero hq) hz
        · exact ⟨m, rfl⟩
      rw [hm, Nat.add_sub_cancel]
      have hfun : roundTake (qs.map (fun g => (g.1, g.2.tail))) =
          fun r => roundTake qs (r + 1) := funext (fun r => roundTake_tails qs r)
      rw [hfun, sweepHeads_eq_roundTake, List.range_succ_eq_map, List.flatMap_cons,
        List.flatMap_map]

theorem interleaveRounds_eq_spec (qs : List (Nat × List RRPair)) :
    interleaveRounds qs = interleaveSpecRounds qs := by
  unfold interleaveRounds interleaveSpecRounds
  exact interleaveGo_eq_rounds (queuesSize qs) qs (le_refl _)

/-- A filterMap over `range` whose results carry their index (plus one) as
first component is sorted by that component. -/
theorem pairwise_filterMap_le {α : Type} (f : Nat → Option (Nat × α))
    (hf : ∀ i x, f i = some x → x.1 = i + 1) :
    ∀ n, List.Pairwise (fun x y => decide (x.1 ≤ y.1) = true)
      ((List.range n).filterMap f) := by
  intro n
  induction n with
  | zero => exact List.Pairwise.nil
  | succ m ih =>
    rw [List.range_succ, List.filterMap_append]
    rw [List.pairwise_append]
    refine ⟨ih, ?_, ?_⟩
    · rcases hfm : f m with _ | x
      · show List.Pairwise _ (List.filterMap f [m])
        rw [List.filterMap_cons, hfm]
        exact List.Pairwise.nil
      · show List.Pairwise _ (List.filterMap f [m])
        rw [List.filterMap_cons, hfm]
        exact List.pairwise_singleton _ _
    · intro x hx y hy
      obtain ⟨i, hi, hfi⟩ := List.mem_filterMap.mp hx
      rw [List.mem_range] at hi
      have hx1 := hf i x hfi
      obtain ⟨j, hj, hfj⟩ := List.mem_filterMap.mp hy
      have hj' : j = m := by
        rcases List.mem_cons.mp hj with h | h
        · exact h
        · exact absurd h (List.not_mem_nil j)
      subst hj'
      have hy1 := hf j y hfj
      rw [decide_eq_true_eq]
      omega

theorem interleaveByGroups_eq_rounds (groups : List (Nat × List RRPair))
    (hs : List.Pairwise (fun x y => decide (x.1 ≤ y.1) = true) groups) :
    interleaveByGroups groups = interleaveSpecRounds groups := by
  unfold interleaveByGroups sortByGroupIdx
  rw [List.mergeSort_of_sorted hs]
  exact interleaveRounds_eq_spec groups

/-! ## Claim C7 -/

/-- The per-pool pairing queues, exactly as the specification describes
them: pool indices in increasing order, a pool with fewer than two teams
contributing nothing, every other pool its round-robin pairings. -/
def poolQueues (gc : Nat) (teams : List Team) : List (Nat × List RRPair) :=
  (List.range gc).filterMap (fun i =>
    let g := i + 1
    let gTeams := (AMap.get? (groupTeams gc teams) g).getD []
    if gTeams.length < 2 then none
    else some (g, roundRobinPairs (gTeams.map Team.id)))

/-- The pooled pairing sequence as the specification describes it: the
per-pool round robins, interleaved round by round, visiting pools in
increasing index order within each round. -/
def pooledSequenceSpec (gc : Nat) (teams : List Team) : List SeqPair :=
  interleaveSpecRounds (poolQueues gc teams)

/-- C7: in pooled mode the pairing sequence equals the specification's
description — round robin per pool (pools with fewer than two teams yield
nothing), then one pending pairing per pool in rotation, pools visited in
increasing index order, until all pools are exhausted.  The comparator sort
the source applies first is the identity here because the pool queues are
built in increasing index order. -/
theorem c7_pooled_interleave (gc : Nat) (teams : List Team) :
    buildSequence true gc teams = pooledSequenceSpec gc teams := by
  have hs : List.Pairwise (fun x y => decide (x.1 ≤ y.1) = true)
      (poolQueues gc teams) := by
    unfold poolQueues
    refine pairwise_filterMap_le _ ?_ gc
    intro i x hfx
    dsimp only at hfx
    by_cases hlt : ((AMap.get? (groupTeams gc teams) (i + 1)).getD []).length < 2
    · rw [if_pos hlt] at hfx
      cases hfx
    · rw [if_neg hlt] at hfx
      obtain rfl := (Option.some_inj.mp hfx).symm
      rfl
  have h1 : buildSequence true gc teams =
      interleaveByGroups (poolQueues gc teams) := rfl
  rw [h1, interleaveByGroups_eq_rounds _ hs]
  rfl

/-! ## Round-robin: rotation normal form and counting toolkit -/

/-- `k` applications of the rotation step. -/
def stepIter (arr : List String) : Nat → List String
  | 0 => arr
  | k + 1 => stepIter (rrStep arr) k

theorem rotR_eq_rotate (l : List String) : rotR l = l.rotate (l.length - 1) := by
  cases l with
  | nil => rw [List.rotate_nil]; rfl
  | cons x xs =>
    have h1 : (x :: xs).length - 1 = xs.length := by simp
    show (x :: xs).getLast (List.cons_ne_nil x xs) :: (x :: xs).dropLast =
      (x :: xs).rotate ((x :: xs).length - 1)
    rw [h1, List.rotate_eq_drop_append_take (by simp : xs.length ≤ (x :: xs).length)]
    have hd : (x :: xs).drop xs.length = [(x :: xs).getLast (List.cons_ne_nil x xs)] := by
      rw [List.drop_eq_getElem_cons (by simp : xs.length < (x :: xs).length)]
      congr 1
      · rw [List.getLast_eq_getElem]
        rfl
      · rw [show xs.length + 1 = (x :: xs).length from by simp, List.drop_length]
    have ht : (x :: xs).take xs.length = (x :: xs).dropLast := by
      rw [List.dropLast_eq_take]
      rfl
    rw [hd, ht]
    rfl

theorem stepIter_cons : ∀ (k : Nat) (h : String) (t : List String),
    stepIter (h :: t) k = h :: t.rotate ((t.length - 1) * k) := by
  intro k
  induction k with
  | zero =>
    intro h t
    rw [Nat.mul_zero, List.rotate_zero]
    rfl
  | succ j ih =>
    intro h t
    show stepIter (rrStep (h :: t)) j = _
    rw [show rrStep (h :: t) = h :: rotR t from rfl, ih h (rotR t), rotR_eq_rotate,
      List.rotate_rotate, List.length_rotate, Nat.mul_succ, Nat.add_comm]

theorem rrRounds_eq_flatMap :
    ∀ (fuel : Nat) (arr : List String) (r0 : Nat),
      rrRounds arr r0 fuel = (List.range fuel).flatMap
        (fun k => roundPairs (stepIter arr k) (r0 + k)) := by
  intro fuel
  induction fuel with
  | zero =>
    intro arr r0
    rfl
  | succ f ih =>
    intro arr r0
    rw [rrRounds, ih (rrStep arr) (r0 + 1), List.range_succ_eq_map, List.flatMap_cons,
      List.flatMap_map]
    have hfun : (fun k => roundPairs (stepIter (rrStep arr) k) (r0 + 1 + k)) =
        (fun a => roundPairs (stepIter arr (a + 1)) (r0 + (a + 1))) := by
      funext k
      rw [show r0 + 1 + k = r0 + (k + 1) by omega]
      rfl
    rw [hfun]
    rfl

theorem countP_flatMap {α β : Type} (f : α → List β) (p : β → Bool) :
    ∀ l : List α, ((l.flatMap f).countP p) =
      (l.map (fun a => (f a).countP p)).sum := by
  intro l
  induction l with
  | nil => rfl
  | cons a as ih =>
    rw [List.flatMap_cons, List.countP_append, List.map_cons, List.sum_cons, ih]

/-- Indicator of one `filterMap` source element for counting purposes. -/
def optInd {β : Type} (p : β → Bool) : Option β → Nat
  | none => 0
  | some b => if p b then 1 else 0

theorem optInd_none {β : Type} (p : β → Bool) : optInd p none = 0 := rfl

theorem optInd_some {β : Type} (p : β → Bool) (b : β) :
    optInd p (some b) = if p b then 1 else 0 := rfl

theorem countP_filterMap {α β : Type} (f : α → Option β) (p : β → Bool) :
    ∀ l : List α, ((l.filterMap f).countP p) =
      (l.map (fun a => optInd p (f a))).sum := by
  intro l
  induction l with
  | nil => rfl
  | cons a as ih =>
    rw [List.filterMap_cons, List.map_cons, List.sum_cons]
    rcases hf : f a with _ | b
    · dsimp only
      rw [optInd_none, ih]
      omega
    · dsimp only
      rw [optInd_some, List.countP_cons, ih]
      by_cases hp : p b = true
      · rw [if_pos hp]
        omega
      · rw [if_neg hp]
        omega

theorem sum_map_range_const (f : Nat → Nat) (c : Nat) :
    ∀ n, (∀ i < n, f i = c) → ((List.range n).map f).sum = n * c := by
  intro n
  induction n with
  | zero =>
    intro _
    simp
  | succ m ih =>
    intro hf
    rw [List.range_succ, List.map_append, List.sum_append,
      ih (fun i hi => hf i (by omega))]
    have hm := hf m (by omega)
    simp [hm, Nat.succ_mul]

theorem sum_map_range_zero (f : Nat → Nat) (n : Nat)
    (hf : ∀ i < n, f i = 0) : ((List.range n).map f).sum = 0 := by
  rw [sum_map_range_const f 0 n hf]
  omega

theorem sum_map_range_single (f : Nat → Nat) :
    ∀ (n i0 : Nat), i0 < n → (∀ i < n, f i = if i = i0 then 1 else 0) →
    ((List.range n).map f).sum = 1 := by
  intro n
  induction n with
  | zero =>
    intro i0 h0 _
    omega
  | succ m ih =>
    intro i0 h0 hf
    rw [List.range_succ, List.map_append, List.sum_append]
    by_cases hm : i0 = m
    · subst hm
      rw [sum_map_range_zero f i0 (fun i hi => by
        rw [hf i (by omega), if_neg (by omega)])]
      have := hf i0 (by omega)
      rw [if_pos rfl] at this
      simp [this]
    · rw [ih i0 (by omega) (fun i hi => hf i (by omega))]
      have := hf m (by omega)
      rw [if_neg (fun h => hm h.symm)] at this
      simp [this]

theorem sum_map_range_except (f : Nat → Nat) :
    ∀ (n i0 : Nat), i0 < n → (∀ i < n, f i = if i = i0 then 0 else 1) →
    ((List.range n).map f).sum = n - 1 := by
  intro n
  induction n with
  | zero =>
    intro i0 h0 _
    omega
  | succ m ih =>
    intro i0 h0 hf
    rw [List.range_succ, List.map_append, List.sum_append]
    by_cases hm : i0 = m
    · subst hm
      rw [sum_map_range_const f 1 i0 (fun i hi => by
        rw [hf i (by omega), if_neg (by omega)])]
      have := hf i0 (by omega)
      rw [if_pos rfl] at this
      simp [this]
    · rw [ih i0 (by omega) (fun i hi => hf i (by omega))]
      have := hf m (by omega)
      rw [if_neg (fun h => hm h.symm)] at this
      simp [this]
      omega

/-- Element access through a rotation, via the default-valued getter the
source's indexing corresponds to. -/
theorem rotate_getD (t : List String) (n j : Nat) (hj : j < t.length) :
    (t.rotate n).getD j "" = t.getD ((j + n) % t.length) "" := by
  have hLpos : 0 < t.length := by omega
  rw [List.getD_eq_getElem?_getD,
    List.getElem?_eq_getElem (by rw [List.length_rotate]; exact hj),
    List.getD_eq_getElem?_getD,
    List.getElem?_eq_getElem (Nat.mod_lt _ hLpos)]
  dsimp only [Option.getD_some]
  exact List.getElem_rotate t n j (by rw [List.length_rotate]; exact hj)

theorem getD_mem {t : List String} {p : Nat} (hp : p < t.length) :
    t.getD p "" ∈ t := by
  rw [List.getD_eq_getElem?_getD, List.getElem?_eq_getElem hp]
  dsimp only [Option.getD_some]
  exact t.getElem_mem hp

theorem getD_inj_of_nodup {t : List String} (hnd : t.Nodup) {p q : Nat}
    (hp : p < t.length) (hq : q < t.length)
    (h : t.getD p "" = t.getD q "") : p = q := by
  rw [List.getD_eq_getElem?_getD, List.getElem?_eq_getElem hp,
    List.getD_eq_getElem?_getD, List.getElem?_eq_getElem hq] at h
  dsimp only [Option.getD_some] at h
  exact (List.Nodup.getElem_inj_iff hnd).mp h

theorem mem_getD_form {t : List String} {x : String} (hx : x ∈ t) :
    ∃ p, p < t.length ∧ t.getD p "" = x := by
  obtain ⟨i, hi, hix⟩ := List.mem_iff_getElem.mp hx
  refine ⟨i, hi, ?_⟩
  rw [List.getD_eq_getElem?_getD, List.getElem?_eq_getElem hi]
  dsimp only [Option.getD_some]
  exact hix

/-- The canonical form of a right-rotated index: rotating the tail `k` times
moves its entry `j` to entry `(j + (L−1)·k) mod L`, and for `j, k < L` that
index is `j − k` or `j + L − k`. -/
theorem shift_mod {L j k : Nat} (hj : j < L) (hk : k < L) :
    (j + (L - 1) * k) % L = if k ≤ j then j - k else j + L - k := by
  have hmul : (L - 1) * k + k = L * k := by
    rw [Nat.sub_one_mul]
    have hle : k ≤ L * k := Nat.le_mul_of_pos_left k (by omega)
    omega
  by_cases hkj : k ≤ j
  · rw [if_pos hkj]
    have h1 : j + (L - 1) * k = (j - k) + L * k := by omega
    rw [h1, Nat.add_mul_mod_self_left]
    exact Nat.mod_eq_of_lt (by omega)
  · rw [if_neg hkj]
    have h1 : j + (L - 1) * k = (j + L - k) + L * (k - 1) := by
      have hmul2 : L * (k - 1) + L = L * k := by
        rw [Nat.mul_sub_one]
        have hle : L ≤ L * k := Nat.le_mul_of_pos_right L (by omega)
        omega
      omega
    rw [h1, Nat.add_mul_mod_self_left]
    exact Nat.mod_eq_of_lt (by omega)

theorem getD_cons_of_pos (a : String) (l : List String) (n : Nat) (hn : 1 ≤ n) :
    (a :: l).getD n "" = l.getD (n - 1) "" := by
  obtain ⟨m, rfl⟩ : ∃ m, n = m + 1 := ⟨n - 1, by omega⟩
  rw [List.getD_cons_succ, Nat.add_sub_cancel]

theorem entry_val (t : List String) (k j : Nat) (hj : j < t.length)
    (hk : k < t.length) :
    (t.rotate ((t.length - 1) * k)).getD j "" =
      t.getD (if k ≤ j then j - k else j + t.length - k) "" := by
  rw [rotate_getD t _ j hj, shift_mod hj hk]

/-- Indicator of a window entry made of two tail values, against the
unordered pair `{x, y}` sitting at tail positions `u`, `v`. -/
theorem tail_indicator_val (t : List String) (hndT : t.Nodup)
    {x y : String} {u v pA pB : Nat} (hu : u < t.length) (hv : v < t.length)
    (hpA : pA < t.length) (hpB : pB < t.length)
    (hxv : t.getD u "" = x) (hyv : t.getD v "" = y)
    (hxB : x ≠ BYE) (hyB : y ≠ BYE) (r' : Nat) :
    optInd (fun p => (p.a == x && p.b == y) || (p.a == y && p.b == x))
      (if t.getD pA "" ≠ BYE ∧ t.getD pB "" ≠ BYE then
        some (⟨t.getD pA "", t.getD pB "", r'⟩ : RRPair) else none) =
    if (pA = u ∧ pB = v) ∨ (pA = v ∧ pB = u) then 1 else 0 := by
  by_cases hmatch : (pA = u ∧ pB = v) ∨ (pA = v ∧ pB = u)
  · rw [if_pos hmatch]
    have hvals : (t.getD pA "" = x ∧ t.getD pB "" = y) ∨
        (t.getD pA "" = y ∧ t.getD pB "" = x) := by
      rcases hmatch with ⟨h1, h2⟩ | ⟨h1, h2⟩
      · exact Or.inl ⟨by rw [h1, hxv], by rw [h2, hyv]⟩
      · exact Or.inr ⟨by rw [h1, hyv], by rw [h2, hxv]⟩
    have hkept : t.getD pA "" ≠ BYE ∧ t.getD pB "" ≠ BYE := by
      rcases hvals with ⟨h1, h2⟩ | ⟨h1, h2⟩
      · exact ⟨by rw [h1]; exact hxB, by rw [h2]; exact hyB⟩
      · exact ⟨by rw [h1]; exact hyB, by rw [h2]; exact hxB⟩
    rw [if_pos hkept, optInd_some]
    dsimp only
    rw [if_pos (by
      simp only [Bool.or_eq_true, Bool.and_eq_true, beq_iff_eq]
      exact hvals)]
  · rw [if_neg hmatch]
    by_cases hkept : t.getD pA "" ≠ BYE ∧ t.getD pB "" ≠ BYE
    · rw [if_pos hkept, optInd_some]
      dsimp only
      have hpm : ¬(((t.getD pA "" == x && t.getD pB "" == y) ||
          (t.getD pA "" == y && t.getD pB "" == x)) = true) := by
        intro hc
        simp only [Bool.or_eq_true, Bool.and_eq_true, beq_iff_eq] at hc
        apply hmatch
        rcases hc with ⟨h1, h2⟩ | ⟨h1, h2⟩
        · exact Or.inl ⟨getD_inj_of_nodup hndT hpA hu (by rw [h1, hxv]),
            getD_inj_of_nodup hndT hpB hv (by rw [h2, hyv])⟩
        · exact Or.inr ⟨getD_inj_of_nodup hndT hpA hv (by rw [h1, hyv]),
            getD_inj_of_nodup hndT hpB hu (by rw [h2, hxv])⟩
      rw [if_neg hpm]
    · rw [if_neg hkept, optInd_none]

/-- Round `k` of the circle method pairs the fixed head `h` with the tail
entry at position `L − 1 − k`, so the head meets tail entry `jz` exactly in
round `L − 1 − jz`. -/
theorem headPair_round_count (h : String) (t : List String)
    (hnd : (h :: t).Nodup) (hL : t.length % 2 = 1) (hhB : h ≠ BYE)
    (z : String) (jz : Nat) (hjz : jz < t.length) (hz : t.getD jz "" = z)
    (hzB : z ≠ BYE) (k r : Nat) (hk : k < t.length) :
    ((roundPairs (stepIter (h :: t) k) r).countP (fun p =>
      (p.a == h && p.b == z) || (p.a == z && p.b == h))) =
    if k = t.length - 1 - jz then 1 else 0 := by
  have hL1 : 1 ≤ t.length := by omega
  have hhT : h ∉ t := (List.nodup_cons.mp hnd).1
  have hndT : t.Nodup := (List.nodup_cons.mp hnd).2
  have hzT : z ∈ t := hz ▸ getD_mem hjz
  have hhz : h ≠ z := fun he => hhT (he ▸ hzT)
  have hhz2 : (h == z) = false := beq_eq_false_iff_ne.mpr hhz
  rw [stepIter_cons]
  unfold roundPairs
  rw [countP_filterMap]
  simp only [List.length_cons, List.length_rotate, Nat.add_sub_cancel]
  have hstep : ∀ i, i < (t.length + 1) / 2 →
      optInd (fun p => (p.a == h && p.b == z) || (p.a == z && p.b == h))
        (if (h :: t.rotate ((t.length - 1) * k)).getD i "" ≠ BYE ∧
            (h :: t.rotate ((t.length - 1) * k)).getD (t.length - i) "" ≠ BYE then
          some (⟨(h :: t.rotate ((t.length - 1) * k)).getD i "",
            (h :: t.rotate ((t.length - 1) * k)).getD (t.length - i) "",
            r + 1⟩ : RRPair)
        else none) =
      if i = 0 ∧ k = t.length - 1 - jz then 1 else 0 := by
    intro i hi
    by_cases hi0 : i = 0
    · subst hi0
      rw [List.getD_cons_zero, Nat.sub_zero, getD_cons_of_pos _ _ _ (by omega),
        entry_val t k (t.length - 1) (by omega) hk,
        if_pos (by omega : k ≤ t.length - 1)]
      by_cases hk0 : k = t.length - 1 - jz
      · rw [if_pos (show (0 : Nat) = 0 ∧ k = t.length - 1 - jz from ⟨rfl, hk0⟩),
          show t.length - 1 - k = jz by omega, hz, if_pos ⟨hhB, hzB⟩, optInd_some]
        dsimp only
        simp
      · rw [if_neg (show ¬((0 : Nat) = 0 ∧ k = t.length - 1 - jz) from
          fun hc => hk0 hc.2)]
        have hBz : (t.getD (t.length - 1 - k) "" == z) = false := by
          refine beq_eq_false_iff_ne.mpr (fun he => ?_)
          have := @getD_inj_of_nodup t hndT (t.length - 1 - k) jz (by omega) hjz
            (by rw [he, hz])
          omega
        by_cases hcond : h ≠ BYE ∧ t.getD (t.length - 1 - k) "" ≠ BYE
        · rw [if_pos hcond, optInd_some]
          dsimp only
          rw [hBz, hhz2]
          simp
        · rw [if_neg hcond, optInd_none]
    · obtain ⟨j, rfl⟩ : ∃ j, i = j + 1 := ⟨i - 1, by omega⟩
      rw [if_neg (show ¬(j + 1 = 0 ∧ k = t.length - 1 - jz) from
        fun hc => hi0 hc.1)]
      have hj : j < t.length := by omega
      rw [List.getD_cons_succ, entry_val t k j hj hk,
        getD_cons_of_pos _ _ _ (by omega : 1 ≤ t.length - (j + 1)),
        entry_val t k (t.length - (j + 1) - 1) (by omega) hk]
      obtain ⟨pA, hpA1, hpA2⟩ : ∃ pA, pA < t.length ∧
          (if k ≤ j then j - k else j + t.length - k) = pA := by
        by_cases hkj : k ≤ j
        · exact ⟨j - k, by omega, if_pos hkj⟩
        · exact ⟨j + t.length - k, by omega, if_neg hkj⟩
      obtain ⟨pB, hpB1, hpB2⟩ : ∃ pB, pB < t.length ∧
          (if k ≤ t.length - (j + 1) - 1 then t.length - (j + 1) - 1 - k
            else t.length - (j + 1) - 1 + t.length - k) = pB := by
        by_cases hkj : k ≤ t.length - (j + 1) - 1
        · exact ⟨t.length - (j + 1) - 1 - k, by omega, if_pos hkj⟩
        · exact ⟨t.length - (j + 1) - 1 + t.length - k, by omega, if_neg hkj⟩
      rw [hpA2, hpB2]
      have hAh : (t.getD pA "" == h) = false :=
        beq_eq_false_iff_ne.mpr (fun he => hhT (he ▸ getD_mem hpA1))
      have hBh : (t.getD pB "" == h) = false :=
        beq_eq_false_iff_ne.mpr (fun he => hhT (he ▸ getD_mem hpB1))
      by_cases hcond : t.getD pA "" ≠ BYE ∧ t.getD pB "" ≠ BYE
      · rw [if_pos hcond, optInd_some]
        dsimp only
        rw [hAh, hBh]
        simp
      · rw [if_neg hcond, optInd_none]
  by_cases hk0 : k = t.length - 1 - jz
  · rw [if_pos hk0]
    apply sum_map_range_single _ _ 0 (by omega)
    intro i hi
    dsimp only
    rw [hstep i hi]
    by_cases hi0 : i = 0
    · rw [if_pos ⟨hi0, hk0⟩, if_pos hi0]
    · rw [if_neg (show ¬(i = 0 ∧ k = t.length - 1 - jz) from fun hc => hi0 hc.1),
        if_neg hi0]
  · rw [if_neg hk0]
    apply sum_map_range_zero
    intro i hi
    dsimp only
    rw [hstep i hi]
    rw [if_neg (show ¬(i = 0 ∧ k = t.length - 1 - jz) from fun hc => hk0 hc.2)]

/-- Round `k` of the circle method contains the pairing of the two tail
entries `u`, `v` exactly when their shifted slots `au = (u + k) mod L` and
`av = (v + k) mod L` occupy mirrored window positions, i.e. sum to `L − 2`. -/
theorem tailPair_round_count (h : String) (t : List String)
    (hnd : (h :: t).Nodup) (hL : t.length % 2 = 1)
    (x y : String) (u v : Nat) (hu : u < t.length) (hv : v < t.length)
    (hxv : t.getD u "" = x) (hyv : t.getD v "" = y) (huv : u ≠ v)
    (hxB : x ≠ BYE) (hyB : y ≠ BYE) (k r : Nat) (hk : k < t.length)
    (au av : Nat) (hau : au < t.length) (hav : av < t.length)
    (hauu : au = u + k ∨ au + t.length = u + k)
    (havv : av = v + k ∨ av + t.length = v + k) :
    ((roundPairs (stepIter (h :: t) k) r).countP (fun p =>
      (p.a == x && p.b == y) || (p.a == y && p.b == x))) =
    if au + av = t.length - 2 then 1 else 0 := by
  have hL1 : 1 ≤ t.length := by omega
  have hhT : h ∉ t := (List.nodup_cons.mp hnd).1
  have hndT : t.Nodup := (List.nodup_cons.mp hnd).2
  have hxT : x ∈ t := hxv ▸ getD_mem hu
  have hyT : y ∈ t := hyv ▸ getD_mem hv
  have hxh : (h == x) = false := beq_eq_false_iff_ne.mpr (fun he => hhT (he ▸ hxT))
  have hyh : (h == y) = false := beq_eq_false_iff_ne.mpr (fun he => hhT (he ▸ hyT))
  have hane : au ≠ av := by
    intro he
    apply huv
    omega
  rw [stepIter_cons]
  unfold roundPairs
  rw [countP_filterMap]
  simp only [List.length_cons, List.length_rotate, Nat.add_sub_cancel]
  have hstep : ∀ i, i < (t.length + 1) / 2 →
      optInd (fun p => (p.a == x && p.b == y) || (p.a == y && p.b == x))
        (if (h :: t.rotate ((t.length - 1) * k)).getD i "" ≠ BYE ∧
            (h :: t.rotate ((t.length - 1) * k)).getD (t.length - i) "" ≠ BYE then
          some (⟨(h :: t.rotate ((t.length - 1) * k)).getD i "",
            (h :: t.rotate ((t.length - 1) * k)).getD (t.length - i) "",
            r + 1⟩ : RRPair)
        else none) =
      if 1 ≤ i ∧ ((i - 1 = au ∧ t.length - 1 - i = av) ∨
        (i - 1 = av ∧ t.length - 1 - i = au)) then 1 else 0 := by
    intro i hi
    by_cases hi0 : i = 0
    · subst hi0
      rw [if_neg (show ¬(1 ≤ 0 ∧ ((0 - 1 = au ∧ t.length - 1 - 0 = av) ∨
        (0 - 1 = av ∧ t.length - 1 - 0 = au))) by omega)]
      rw [List.getD_cons_zero, Nat.sub_zero, getD_cons_of_pos _ _ _ (by omega),
        entry_val t k (t.length - 1) (by omega) hk,
        if_pos (by omega : k ≤ t.length - 1)]
      by_cases hcond : h ≠ BYE ∧ t.getD (t.length - 1 - k) "" ≠ BYE
      · rw [if_pos hcond, optInd_some]
        dsimp only
        rw [hxh, hyh]
        simp
      · rw [if_neg hcond, optInd_none]
    · obtain ⟨j, rfl⟩ : ∃ j, i = j + 1 := ⟨i - 1, by omega⟩
      have hj : j < t.length := by omega
      rw [List.getD_cons_succ, entry_val t k j hj hk,
        getD_cons_of_pos _ _ _ (by omega : 1 ≤ t.length - (j + 1)),
        entry_val t k (t.length - (j + 1) - 1) (by omega) hk]
      obtain ⟨pA, hpA1, hpA2, hpA3⟩ : ∃ pA, pA < t.length ∧
          (if k ≤ j then j - k else j + t.length - k) = pA ∧
          (pA + k = j ∨ pA + k = j + t.length) := by
        by_cases hkj : k ≤ j
        · exact ⟨j - k, by omega, if_pos hkj, by omega⟩
        · exact ⟨j + t.length - k, by omega, if_neg hkj, by omega⟩
      obtain ⟨pB, hpB1, hpB2, hpB3⟩ : ∃ pB, pB < t.length ∧
          (if k ≤ t.length - (j + 1) - 1 then t.length - (j + 1) - 1 - k
            else t.length - (j + 1) - 1 + t.length - k) = pB ∧
          (pB + k = t.length - (j + 1) - 1 ∨
            pB + k = t.length - (j + 1) - 1 + t.length) := by
        by_cases hkj : k ≤ t.length - (j + 1) - 1
        · exact ⟨t.length - (j + 1) - 1 - k, by omega, if_pos hkj, by omega⟩
        · exact ⟨t.length - (j + 1) - 1 + t.length - k, by omega, if_neg hkj, by omega⟩
      rw [hpA2, hpB2]
      rw [tail_indicator_val t hndT hu hv hpA1 hpB1 hxv hyv hxB hyB (r + 1)]
      by_cases hm : (pA = u ∧ pB = v) ∨ (pA = v ∧ pB = u)
      · have hrhs : 1 ≤ j + 1 ∧ ((j + 1 - 1 = au ∧ t.length - 1 - (j + 1) = av) ∨
            (j + 1 - 1 = av ∧ t.length - 1 - (j + 1) = au)) := by
          refine ⟨by omega, ?_⟩
          rcases hm with ⟨h1, h2⟩ | ⟨h1, h2⟩
          · exact Or.inl ⟨by omega, by omega⟩
          · exact Or.inr ⟨by omega, by omega⟩
        rw [if_pos hm, if_pos hrhs]
      · have hrhs : ¬(1 ≤ j + 1 ∧ ((j + 1 - 1 = au ∧ t.length - 1 - (j + 1) = av) ∨
            (j + 1 - 1 = av ∧ t.length - 1 - (j + 1) = au))) := by
          intro hc
          apply hm
          rcases hc.2 with ⟨h1, h2⟩ | ⟨h1, h2⟩
          · exact Or.inl ⟨by omega, by omega⟩
          · exact Or.inr ⟨by omega, by omega⟩
        rw [if_neg hm, if_neg hrhs]
  by_cases hcond : au + av = t.length - 2
  · rw [if_pos hcond]
    apply sum_map_range_single _ _ (min au av + 1) (by omega)
    intro i hi
    dsimp only
    rw [hstep i hi]
    by_cases hieq : i = min au av + 1
    · have hrhs : 1 ≤ i ∧ ((i - 1 = au ∧ t.length - 1 - i = av) ∨
          (i - 1 = av ∧ t.length - 1 - i = au)) := by
        refine ⟨by omega, ?_⟩
        rcases Nat.lt_or_ge au av with hlt | hge
        · exact Or.inl ⟨by omega, by omega⟩
        · exact Or.inr ⟨by omega, by omega⟩
      rw [if_pos hrhs, if_pos hieq]
    · have hrhs : ¬(1 ≤ i ∧ ((i - 1 = au ∧ t.length - 1 - i = av) ∨
          (i - 1 = av ∧ t.length - 1 - i = au))) := by
        intro hc
        apply hieq
        rcases hc.2 with ⟨h1, h2⟩ | ⟨h1, h2⟩
        · omega
        · omega
      rw [if_neg hrhs, if_neg hieq]
  · rw [if_neg hcond]
    apply sum_map_range_zero
    intro i hi
    dsimp only
    rw [hstep i hi]
    have hrhs : ¬(1 ≤ i ∧ ((i - 1 = au ∧ t.length - 1 - i = av) ∨
        (i - 1 = av ∧ t.length - 1 - i = au))) := by
      intro hc
      apply hcond
      rcases hc.2 with ⟨h1, h2⟩ | ⟨h1, h2⟩
      · omega
      · omega
    rw [if_neg hrhs]

/-- When no bye is present every window entry of every round is kept. -/
theorem roundLen_noBye (h : String) (t : List String) (hB : BYE ∉ h :: t)
    (hL : t.length % 2 = 1) (k r : Nat) (hk : k < t.length) :
    (roundPairs (stepIter (h :: t) k) r).length = (t.length + 1) / 2 := by
  have hL1 : 1 ≤ t.length := by omega
  have hhB : h ≠ BYE := fun he => hB (he ▸ List.mem_cons_self h t)
  have htB : ∀ w ∈ t, w ≠ BYE := fun w hw he => hB (he ▸ List.mem_cons_of_mem h hw)
  rw [← List.countP_true]
  rw [stepIter_cons]
  unfold roundPairs
  rw [countP_filterMap]
  simp only [List.length_cons, List.length_rotate, Nat.add_sub_cancel]
  rw [sum_map_range_const _ 1 _ ?_, Nat.mul_one]
  intro i hi
  by_cases hi0 : i = 0
  · subst hi0
    rw [List.getD_cons_zero, Nat.sub_zero, getD_cons_of_pos _ _ _ (by omega),
      entry_val t k (t.length - 1) (by omega) hk,
      if_pos (by omega : k ≤ t.length - 1),
      if_pos ⟨hhB, htB _ (getD_mem (by omega))⟩, optInd_some]
    rw [if_pos rfl]
  · obtain ⟨j, rfl⟩ : ∃ j, i = j + 1 := ⟨i - 1, by omega⟩
    have hj : j < t.length := by omega
    rw [List.getD_cons_succ, entry_val t k j hj hk,
      getD_cons_of_pos _ _ _ (by omega : 1 ≤ t.length - (j + 1)),
      entry_val t k (t.length - (j + 1) - 1) (by omega) hk]
    rw [if_pos ⟨htB _ (getD_mem (by split_ifs <;> omega)),
      htB _ (getD_mem (by split_ifs <;> omega))⟩, optInd_some]
    rw [if_pos rfl]

/-- When the bye occupies tail position `jB`, exactly one window entry of
every round is dropped. -/
theorem roundLen_bye (h : String) (t : List String) (hnd : (h :: t).Nodup)
    (hL : t.length % 2 = 1) (hhB : h ≠ BYE) (jB : Nat) (hjB : jB < t.length)
    (hjBv : t.getD jB "" = BYE) (k r : Nat) (hk : k < t.length) :
    (roundPairs (stepIter (h :: t) k) r).length = (t.length + 1) / 2 - 1 := by
  have hL1 : 1 ≤ t.length := by omega
  have hndT : t.Nodup := (List.nodup_cons.mp hnd).2
  obtain ⟨js, hjs1, hjs2⟩ : ∃ js, js < t.length ∧
      (js = jB + k ∨ js + t.length = jB + k) := by
    by_cases hc : jB + k < t.length
    · exact ⟨jB + k, hc, Or.inl rfl⟩
    · exact ⟨jB + k - t.length, by omega, Or.inr (by omega)⟩
  obtain ⟨i0, hi01, hi02⟩ : ∃ i0, i0 < (t.length + 1) / 2 ∧
      ∀ i, i < (t.length + 1) / 2 →
        ((i = js + 1 ∨ t.length - i = js + 1) ↔ i = i0) := by
    by_cases hc : js + 1 < (t.length + 1) / 2
    · exact ⟨js + 1, hc, fun i hi => by omega⟩
    · exact ⟨t.length - (js + 1), by omega, fun i hi => by omega⟩
  rw [← List.countP_true]
  rw [stepIter_cons]
  unfold roundPairs
  rw [countP_filterMap]
  simp only [List.length_cons, List.length_rotate, Nat.add_sub_cancel]
  apply sum_map_range_except _ _ i0 hi01
  intro i hi
  by_cases hi0 : i = 0
  · subst hi0
    rw [List.getD_cons_zero, Nat.sub_zero, getD_cons_of_pos _ _ _ (by omega),
      entry_val t k (t.length - 1) (by omega) hk,
      if_pos (by omega : k ≤ t.length - 1)]
    by_cases hBYE : t.getD (t.length - 1 - k) "" = BYE
    · have hjBk : t.length - 1 - k = jB :=
        @getD_inj_of_nodup t hndT (t.length - 1 - k) jB (by omega) hjB
          (by rw [hBYE, hjBv])
      have hzero : (0 : Nat) = i0 := (hi02 0 hi).mp (Or.inr (by omega))
      rw [if_neg (fun hc => hc.2 hBYE), optInd_none, if_pos hzero]
    · have hnot : ¬((0 : Nat) = i0) := by
        intro hc
        rcases (hi02 0 hi).mpr hc with hd | hd
        · omega
        · exact hBYE (by rw [show t.length - 1 - k = jB by omega, hjBv])
      rw [if_pos ⟨hhB, hBYE⟩, optInd_some]
      rw [if_pos rfl, if_neg hnot]
  · obtain ⟨j, rfl⟩ : ∃ j, i = j + 1 := ⟨i - 1, by omega⟩
    have hj : j < t.length := by omega
    rw [List.getD_cons_succ, entry_val t k j hj hk,
      getD_cons_of_pos _ _ _ (by omega : 1 ≤ t.length - (j + 1)),
      entry_val t k (t.length - (j + 1) - 1) (by omega) hk]
    obtain ⟨pA, hpA1, hpA2, hpA3⟩ : ∃ pA, pA < t.length ∧
        (if k ≤ j then j - k else j + t.length - k) = pA ∧
        (pA + k = j ∨ pA + k = j + t.length) := by
      by_cases hkj : k ≤ j
      · exact ⟨j - k, by omega, if_pos hkj, by omega⟩
      · exact ⟨j + t.length - k, by omega, if_neg hkj, by omega⟩
    obtain ⟨pB, hpB1, hpB2, hpB3⟩ : ∃ pB, pB < t.length ∧
        (if k ≤ t.length - (j + 1) - 1 then t.length - (j + 1) - 1 - k
          else t.length - (j + 1) - 1 + t.length - k) = pB ∧
        (pB + k = t.length - (j + 1) - 1 ∨
          pB + k = t.length - (j + 1) - 1 + t.length) := by
      by_cases hkj : k ≤ t.length - (j + 1) - 1
      · exact ⟨t.length - (j + 1) - 1 - k, by omega, if_pos hkj, by omega⟩
      · exact ⟨t.length - (j + 1) - 1 + t.length - k, by omega, if_neg hkj, by omega⟩
    rw [hpA2, hpB2]
    by_cases hfail : t.getD pA "" = BYE ∨ t.getD pB "" = BYE
    · have hmatch : j + 1 = i0 := by
        apply (hi02 (j + 1) hi).mp
        rcases hfail with hf | hf
        · have : pA = jB := @getD_inj_of_nodup t hndT pA jB hpA1 hjB
            (by rw [hf, hjBv])
          exact Or.inl (by omega)
        · have : pB = jB := @getD_inj_of_nodup t hndT pB jB hpB1 hjB
            (by rw [hf, hjBv])
          exact Or.inr (by omega)
      rw [if_neg (fun hc => by
        rcases hfail with hf | hf
        · exact hc.1 hf
        · exact hc.2 hf), optInd_none, if_pos hmatch]
    · push_neg at hfail
      have hnot : ¬(j + 1 = i0) := by
        intro hc
        rcases (hi02 (j + 1) hi).mpr hc with hd | hd
        · exact hfail.1 (by rw [show pA = jB by omega, hjBv])
        · exact hfail.2 (by rw [show pB = jB by omega, hjBv])
      rw [if_pos ⟨hfail.1, hfail.2⟩, optInd_some]
      rw [if_pos rfl, if_neg hnot]

/-- Total pairing count of the circle method without a bye. -/
theorem rrRounds_length_noBye (h : String) (t : List String)
    (hB : BYE ∉ h :: t) (hL : t.length % 2 = 1) :
    (rrRounds (h :: t) 0 t.length).length = t.length * ((t.length + 1) / 2) := by
  rw [← List.countP_true, rrRounds_eq_flatMap, countP_flatMap]
  apply sum_map_range_const
  intro k hk
  dsimp only
  rw [List.countP_true, roundLen_noBye h t hB hL k (0 + k) hk]

/-- Total pairing count of the circle method with a bye in the tail. -/
theorem rrRounds_length_bye (h : String) (t : List String)
    (hnd : (h :: t).Nodup) (hL : t.length % 2 = 1) (hhB : h ≠ BYE)
    (jB : Nat) (hjB : jB < t.length) (hjBv : t.getD jB "" = BYE) :
    (rrRounds (h :: t) 0 t.length).length =
      t.length * ((t.length + 1) / 2 - 1) := by
  rw [← List.countP_true, rrRounds_eq_flatMap, countP_flatMap]
  apply sum_map_range_const
  intro k hk
  dsimp only
  rw [List.countP_true, roundLen_bye h t hnd hL hhB jB hjB hjBv k (0 + k) hk]

/-- Every unordered pair of distinct non-bye entries of `h :: t` is produced
by the circle method exactly once over the `L` rounds. -/
theorem pairCount_total (h : String) (t : List String) (hnd : (h :: t).Nodup)
    (hL : t.length % 2 = 1)
    (x y : String) (hx : x ∈ h :: t) (hy : y ∈ h :: t) (hxy : x ≠ y)
    (hxB : x ≠ BYE) (hyB : y ≠ BYE) :
    ((rrRounds (h :: t) 0 t.length).countP (fun p =>
      (p.a == x && p.b == y) || (p.a == y && p.b == x))) = 1 := by
  have hL1 : 1 ≤ t.length := by omega
  rw [rrRounds_eq_flatMap, countP_flatMap]
  rcases List.mem_cons.mp hx with rfl | hxT
  · rcases List.mem_cons.mp hy with rfl | hyT
    · exact absurd rfl hxy
    · obtain ⟨jz, hjz, hjzv⟩ := mem_getD_form hyT
      apply sum_map_range_single _ _ (t.length - 1 - jz) (by omega)
      intro k hk
      dsimp only
      rw [headPair_round_count x t hnd hL hxB y jz hjz hjzv hyB k (0 + k) hk]
  · rcases List.mem_cons.mp hy with rfl | hyT
    · obtain ⟨jz, hjz, hjzv⟩ := mem_getD_form hxT
      have hcomm : (fun (p : RRPair) => (p.a == x && p.b == y) ||
          (p.a == y && p.b == x)) =
          (fun (p : RRPair) => (p.a == y && p.b == x) || (p.a == x && p.b == y)) :=
        funext (fun p => Bool.or_comm _ _)
      rw [hcomm]
      apply sum_map_range_single _ _ (t.length - 1 - jz) (by omega)
      intro k hk
      dsimp only
      rw [headPair_round_count y t hnd hL hyB x jz hjz hjzv hxB k (0 + k) hk]
    · obtain ⟨u, hu, huval⟩ := mem_getD_form hxT
      obtain ⟨v, hv, hvval⟩ := mem_getD_form hyT
      have huv : u ≠ v := fun he => hxy (by rw [← huval, ← hvval, he])
      obtain ⟨k0, hk01, hk02⟩ : ∃ k0, k0 < t.length ∧
          (2 * k0 = 2 * t.length - 2 - u - v ∨
           2 * k0 + t.length = 2 * t.length - 2 - u - v ∨
           2 * k0 = 2 * t.length - 2 - u - v + t.length) := by
        by_cases hpar : (2 * t.length - 2 - u - v) % 2 = 0
        · exact ⟨(2 * t.length - 2 - u - v) / 2, by omega, Or.inl (by omega)⟩
        · by_cases hge : 2 * t.length - 2 - u - v ≥ t.length
          · exact ⟨(2 * t.length - 2 - u - v - t.length) / 2, by omega,
              Or.inr (Or.inl (by omega))⟩
          · exact ⟨(2 * t.length - 2 - u - v + t.length) / 2, by omega,
              Or.inr (Or.inr (by omega))⟩
      apply sum_map_range_single _ _ k0 hk01
      intro k hk
      dsimp only
      obtain ⟨au, hau, hauu⟩ : ∃ au, au < t.length ∧
          (au = u + k ∨ au + t.length = u + k) := by
        by_cases hc : u + k < t.length
        · exact ⟨u + k, hc, Or.inl rfl⟩
        · exact ⟨u + k - t.length, by omega, Or.inr (by omega)⟩
      obtain ⟨av, hav, havv⟩ : ∃ av, av < t.length ∧
          (av = v + k ∨ av + t.length = v + k) := by
        by_cases hc : v + k < t.length
        · exact ⟨v + k, hc, Or.inl rfl⟩
        · exact ⟨v + k - t.length, by omega, Or.inr (by omega)⟩
      rw [tailPair_round_count h t hnd hL x y u v hu hv huval hvval huv hxB hyB
        k (0 + k) hk au av hau hav hauu havv]
      by_cases hkk : k = k0
      · rw [if_pos (by omega), if_pos hkk]
      · rw [if_neg (show ¬(au + av = t.length - 2) from fun hc => hkk (by omega)),
          if_neg hkk]

/-! ## Claim C5 -/

/-- C5: the flat pairing generator implements an exact round robin — for a
list of distinct non-bye team ids of length `n ≥ 2` it emits exactly
`n(n−1)/2` pairings, and every unordered pair of distinct teams occurs
exactly once in the output. -/
theorem c5_round_robin (ids : List String) (hnd : ids.Nodup)
    (hbye : BYE ∉ ids) (hn : 2 ≤ ids.length) :
    (roundRobinPairs ids).length = ids.length * (ids.length - 1) / 2 ∧
    (∀ x ∈ ids, ∀ y ∈ ids, x ≠ y →
      (roundRobinPairs ids).countP (fun p =>
        (p.a == x && p.b == y) || (p.a == y && p.b == x)) = 1) := by
  obtain ⟨a, rest, rfl⟩ : ∃ a rest, ids = a :: rest := by
    rcases ids with _ | ⟨a, rest⟩
    · exact absurd hn (by simp)
    · exact ⟨a, rest, rfl⟩
  have haB : a ≠ BYE := fun he => hbye (he ▸ List.mem_cons_self a rest)
  have hlc : (a :: rest).length = rest.length + 1 := rfl
  by_cases hpar : (a :: rest).length % 2 = 1
  · have hpad : padIds (a :: rest) = a :: (rest ++ [BYE]) := by
      unfold padIds
      rw [if_pos hpar]
      rfl
    have hrr : roundRobinPairs (a :: rest) =
        rrRounds (a :: (rest ++ [BYE])) 0 (rest ++ [BYE]).length := by
      unfold roundRobinPairs
      rw [hpad]
      rfl
    have hnd0 : (a :: (rest ++ [BYE])).Nodup := by
      rw [← hpad]
      exact padIds_nodup hnd hbye
    have hL : (rest ++ [BYE]).length % 2 = 1 := by
      simp only [List.length_append, List.length_singleton]
      omega
    have hjBv : (rest ++ [BYE]).getD rest.length "" = BYE := by
      rw [List.getD_eq_getElem?_getD, List.getElem?_append_right (le_refl rest.length)]
      simp
    have hmemT : ∀ w ∈ a :: rest, w ∈ a :: (rest ++ [BYE]) := by
      intro w hw
      rcases List.mem_cons.mp hw with rfl | hw2
      · exact List.mem_cons_self _ _
      · exact List.mem_cons_of_mem _ (List.mem_append_left _ hw2)
    constructor
    · rw [hrr, rrRounds_length_bye a (rest ++ [BYE]) hnd0 hL haB rest.length
        (by simp) hjBv]
      have hlen : (rest ++ [BYE]).length = rest.length + 1 := by simp
      rw [hlen, hlc]
      obtain ⟨w, hw⟩ : ∃ w, rest.length = 2 * w := ⟨rest.length / 2, by omega⟩
      rw [hw]
      have h1 : (2 * w + 1 + 1) / 2 - 1 = w := by omega
      have h2 : 2 * w + 1 - 1 = 2 * w := by omega
      rw [h1, h2]
      have h3 : (2 * w + 1) * (2 * w) = 2 * ((2 * w + 1) * w) := by ring
      rw [h3, Nat.mul_div_cancel_left _ (by omega : 0 < 2)]
    · intro x hx y hy hxy
      rw [hrr]
      exact pairCount_total a (rest ++ [BYE]) hnd0 hL x y (hmemT x hx) (hmemT y hy)
        hxy (fun he => hbye (he ▸ hx)) (fun he => hbye (he ▸ hy))
  · have hpad : padIds (a :: rest) = a :: rest := by
      unfold padIds
      rw [if_neg hpar]
    have hrr : roundRobinPairs (a :: rest) = rrRounds (a :: rest) 0 rest.length := by
      unfold roundRobinPairs
      rw [hpad]
      rfl
    have hL : rest.length % 2 = 1 := by omega
    constructor
    · rw [hrr, rrRounds_length_noBye a rest hbye hL, hlc]
      obtain ⟨w, hw⟩ : ∃ w, rest.length = 2 * w + 1 := ⟨rest.length / 2, by omega⟩
      rw [hw]
      have h1 : (2 * w + 1 + 1) / 2 = w + 1 := by omega
      have h2 : 2 * w + 1 + 1 - 1 = 2 * w + 1 := by omega
      rw [h1, h2]
      have h3 : (2 * w + 1 + 1) * (2 * w + 1) = 2 * ((2 * w + 1) * (w + 1)) := by ring
      rw [h3, Nat.mul_div_cancel_left _ (by omega : 0 < 2)]
    · intro x hx y hy hxy
      rw [hrr]
      exact pairCount_total a rest hnd hL x y hx hy hxy
        (fun he => hbye (he ▸ hx)) (fun he => hbye (he ▸ hy))

theorem c5_round_robin_witness :
    (roundRobinPairs ["A", "B", "C"]).length = 3 * (3 - 1) / 2 ∧
    (∀ x ∈ (["A", "B", "C"] : List String), ∀ y ∈ (["A", "B", "C"] : List String),
      x ≠ y → (roundRobinPairs ["A", "B", "C"]).countP (fun p =>
        (p.a == x && p.b == y) || (p.a == y && p.b == x)) = 1) :=
  c5_round_robin ["A", "B", "C"] (by decide) (by decide) (by decide)

end Sched
